import Mathlib

set_option linter.unusedVariables false

/-!
Shallow embedding of the declarative query and response-projection engine of
the CTC-backend repository, file `src/database/services/filter/filters.py`:
the filter DSL (`Condition`, `ConditionGroup`, `RelationConfig`, `Filter`),
the result projector (`FieldFilter`), the query builder (`QueryBuilder`),
the service facade (`BaseServiceWithFilters.get_with_filters`,
`count_with_filters`) and the clean-response pass
(`_clean_relations_none_values` / `_clean_single_relation`).

Python dictionaries are modelled as association lists in insertion order
(`Dict`), Python runtime values as the inductive `Value` (with `vnull` for
`None`).  Python truthiness is `pyFalsy`.  The external database session is a
parameter `exec : Query → List Value`; a concrete single-table semantics
`execQuery` is provided for claims that need to count or return rows.
-/

namespace CTC

/-- JSON-like runtime values standing for the Python values that flow through
the engine: dicts, lists, strings, ints, bools and `None`. -/
inductive Value where
  | vnull : Value
  | vint : Int → Value
  | vstr : String → Value
  | vbool : Bool → Value
  | vlist : List Value → Value
  | vobj : List (String × Value) → Value

/-- A Python dict: association list of string keys, in insertion order. -/
abbrev Dict := List (String × Value)

/-- Python `d[k]` / `k in d`: first entry with the given key. -/
def lookupD (d : Dict) (k : String) : Option Value :=
  match d with
  | [] => none
  | (k2, v) :: rest => if k2 = k then some v else lookupD rest k

/-- The keys of a dict, in order. -/
def dictKeys (d : Dict) : List String := d.map Prod.fst

/-- Python `d[k] = v`: overwrite in place when the key exists, else append.
Python dict keys are unique, so replacing the first occurrence is exact. -/
def dictInsert : Dict → String → Value → Dict
  | [], k, v => [(k, v)]
  | (k2, w) :: rest, k, v =>
      if k2 = k then (k, v) :: rest else (k2, w) :: dictInsert rest k v

/-- Python `del d[k]`. -/
def eraseKey (d : Dict) (k : String) : Dict := d.filter (fun p => p.1 ≠ k)

/-- Python truthiness: `not x` is true exactly on these values. -/
def pyFalsy : Value → Bool
  | .vnull => true
  | .vint n => n == 0
  | .vstr s => s == ""
  | .vbool b => !b
  | .vlist xs => xs.isEmpty
  | .vobj d => d.isEmpty

/-- The DSL class `RelationConfig` of `filters.py`: a relation to eager-load
and/or project.  A Python `fields=None` and `fields=[]` behave identically in
every use site (both are falsy), so both are modelled as `[]`; likewise
`nested_relations=None` is modelled as `[]`. -/
inductive RelationConfig where
  | mk (relation_name : String) (load_strategy : String) (fields : List String)
      (nested_relations : List RelationConfig)

def RelationConfig.relation_name : RelationConfig → String
  | .mk n _ _ _ => n

def RelationConfig.load_strategy : RelationConfig → String
  | .mk _ s _ _ => s

def RelationConfig.fields : RelationConfig → List String
  | .mk _ _ f _ => f

def RelationConfig.nested_relations : RelationConfig → List RelationConfig
  | .mk _ _ _ r => r

/-- The relation names mentioned by a list of relation configs (the Python
`relation_names` set built in `FieldFilter._filter_single_object`). -/
def relNamesOf (rr : List RelationConfig) : List String :=
  rr.map RelationConfig.relation_name

/-- The requested-fields loop of `FieldFilter._filter_single_object` (and the
identical loop of `_filter_single_relation_object`): for each requested field
present on the object and not shadowed by a relation name, copy it over. -/
def baseFieldsGo (d : Dict) (ns : List String) : List String → Dict → Dict
  | [], acc => acc
  | f :: rest, acc =>
      let acc2 := match lookupD d f with
        | some v => if f ∈ ns then acc else dictInsert acc f v
        | none => acc
      baseFieldsGo d ns rest acc2

/-- The all-fields loop of `FieldFilter._filter_single_object` (taken when no
fields are requested): copy every key that is not a relation name. -/
def baseAllGo (ns : List String) : Dict → Dict → Dict
  | [], acc => acc
  | (k, v) :: rest, acc =>
      baseAllGo ns rest (if k ∈ ns then acc else dictInsert acc k v)

/-- The non-relational part of `FieldFilter._filter_single_object`. -/
def baseFields (d : Dict) (rf : List String) (ns : List String) : Dict :=
  if rf.isEmpty then baseAllGo ns d [] else baseFieldsGo d ns rf []

mutual

/-- `FieldFilter._filter_single_object` (identical in all branches to
`FieldFilter._filter_single_relation_object`): keep the requested scalar
fields, then recursively project each configured relation whose key is
present and not `None`. -/
def filterSingleObject (obj : Value) (rf : List String)
    (rr : List RelationConfig) : Value :=
  match obj with
  | .vobj d => .vobj (procRelations (baseFields d rf (relNamesOf rr)) d rr)
  | v => v
termination_by (sizeOf rr, 1)

/-- The relation-processing loop shared by `_filter_single_object` and
`_filter_single_relation_object`: for each configured relation with a truthy
name whose key is present on the object with a non-`None` value, store the
recursive projection of that value. -/
def procRelations (acc : Dict) (d : Dict) (rr : List RelationConfig) : Dict :=
  match rr with
  | [] => acc
  | .mk name _ flds nested :: rest =>
      let acc2 :=
        if name = "" then acc
        else match lookupD d name with
          | some v =>
              match v with
              | .vnull => acc
              | w => dictInsert acc name (filterRelationRecursive w flds nested)
          | none => acc
      procRelations acc2 d rest
termination_by (sizeOf rr, 0)

/-- `FieldFilter._filter_relation_recursive`: falsy data is returned as-is,
lists are projected element-wise, dicts are projected as single objects,
anything else passes through. -/
def filterRelationRecursive (v : Value) (rf : List String)
    (rr : List RelationConfig) : Value :=
  if pyFalsy v then v
  else match v with
    | .vlist xs => .vlist (xs.attach.map (fun x => filterSingleObject x.1 rf rr))
    | .vobj d => filterSingleObject (.vobj d) rf rr
    | w => w
termination_by (sizeOf rr, 2)

end

/-- `FieldFilter.filter_response_fields`: the public projection entry point.
Falsy data, or a request with no fields and no relations, is returned
unchanged; a list is projected element-wise. -/
def filter_response_fields (data : Value) (rf : List String)
    (rr : List RelationConfig) : Value :=
  if pyFalsy data then data
  else if rf.isEmpty && rr.isEmpty then data
  else match data with
    | .vlist xs => .vlist (xs.map (fun x => filterSingleObject x rf rr))
    | d => filterSingleObject d rf rr

/-! ## The filter DSL -/

/-- `LogicalOperator` of `filters.py`. -/
inductive LogicalOperator where
  | AND : LogicalOperator
  | OR : LogicalOperator
deriving DecidableEq

/-- A `Condition` or `ConditionGroup` of the DSL.  `atom` is a `Condition`
(attribute dot-path, operator name, comparison value); `group` is a
`ConditionGroup` (children plus the logical operator governing them). -/
inductive Cond where
  | atom (attr : String) (operator : String) (value : Value)
  | group (conditions : List Cond) (logical_operator : LogicalOperator)

/-- The closed operator set of `Condition.validate_operator`. -/
def allowedOperators : List String :=
  ["eq", "ne", "gt", "gte", "lt", "lte",
   "contains", "icontains", "startswith", "endswith",
   "in", "not_in", "is_null", "is_not_null"]

/-- The validation error message produced by `Condition.validate_operator`
for an unsupported operator; it names the valid operators. -/
def operatorErrorMessage (v : String) : String :=
  "Operador " ++ v ++ " no soportado. Operadores validos: " ++
    String.intercalate ", " allowedOperators

/-- Constructing a `Condition` through the pydantic validator: fails exactly
when the operator is outside the closed set. -/
def mkCondition (attr operator : String) (value : Value) :
    Except String Cond :=
  if operator ∈ allowedOperators then .ok (.atom attr operator value)
  else .error (operatorErrorMessage operator)

/-- The `Filter` model of `filters.py`.  `fields = []` models the Python
`fields=None` (falsy in every use site), `conditions = []` models
`conditions=None`, `relations = []` models `relations=None` and
`order_by = ""` models `order_by=None`. -/
structure Filter where
  conditions : List Cond
  logical_operator : LogicalOperator
  relations : List RelationConfig
  fields : List String
  limit : Option Int
  offset : Option Int
  order_by : String
  order_direction : String

/-- Constructing a `Filter` through pydantic: `limit` has bounds `1..1000`
with default `10`, `offset` has bound `≥ 0` with default `0` (an omitted
argument is `none`). -/
def mkFilter (conditions : List Cond) (lop : LogicalOperator)
    (relations : List RelationConfig) (fields : List String)
    (limit offset : Option Int) (order_by order_direction : String) :
    Except String Filter :=
  let l := limit.getD 10
  let o := offset.getD 0
  if l < 1 ∨ 1000 < l then .error "limit fuera del rango 1..1000"
  else if o < 0 then .error "offset no puede ser negativo"
  else .ok { conditions := conditions, logical_operator := lop,
             relations := relations, fields := fields,
             limit := some l, offset := some o,
             order_by := order_by, order_direction := order_direction }

/-! ## Entity metadata -/

/-- Entity-type metadata: the scalar field names and the declared relations
(relation name paired with the target model name) of one SQLModel class. -/
structure ModelMeta where
  name : String
  fields : List String
  relations : List (String × String)
deriving DecidableEq

/-- The set of model classes known to the ORM. -/
abbrev ModelDB := List ModelMeta

def findModel (db : ModelDB) (n : String) : Option ModelMeta :=
  db.find? (fun m => m.name = n)

/-- Python `hasattr(model_class, a)`: true for scalar fields and for declared
relation attributes. -/
def pyHasattr (m : ModelMeta) (a : String) : Bool :=
  a ∈ m.fields ∨ a ∈ m.relations.map Prod.fst

/-- `QueryBuilder._get_related_model`: resolve a relation name to the related
model class (the per-builder cache is pure memoization and is therefore not
modelled).  Returns `none` when the relation does not exist or its target is
not a known model. -/
def getRelatedModel (db : ModelDB) (m : ModelMeta) (rel : String) :
    Option ModelMeta :=
  match m.relations.find? (fun p => p.1 = rel) with
  | some (_, target) => findModel db target
  | none => none

/-! ## Clauses and queries -/

/-- A column reference: model name and column name. -/
abbrev ColRef := String × String

/-- A SQLAlchemy filter clause, one constructor per entry of the operator
dispatch table of `QueryBuilder._build_filter_clause` plus the boolean
combinators `and_` / `or_` / `~`. -/
inductive Clause where
  | ceq (col : ColRef) (v : Value)
  | cne (col : ColRef) (v : Value)
  | cgt (col : ColRef) (v : Value)
  | cge (col : ColRef) (v : Value)
  | clt (col : ColRef) (v : Value)
  | cle (col : ColRef) (v : Value)
  | ccontains (col : ColRef) (s : String)
  | cicontains (col : ColRef) (s : String)
  | cstarts (col : ColRef) (s : String)
  | cends (col : ColRef) (s : String)
  | cin (col : ColRef) (vs : List Value)
  | cisnull (col : ColRef)
  | cisnotnull (col : ColRef)
  | cnot (c : Clause)
  | cand (cs : List Clause)
  | cor (cs : List Clause)

/-- Python `str(val)` for the values the engine passes to `contains`,
`startswith`, `endswith`. -/
def pyStr : Value → String
  | .vnull => "None"
  | .vint n => toString n
  | .vstr s => s
  | .vbool b => if b then "True" else "False"
  | .vlist _ => "[...]"
  | .vobj _ => "{...}"

/-- The coercion `val if isinstance(val, list) else [val]` used by the
`in` / `not_in` operators. -/
def toValueList : Value → List Value
  | .vlist xs => xs
  | v => [v]

/-- An eager-load directive produced by `QueryBuilder._apply_relation_loading`:
base strategy and relation with an optional `load_only` column subset, plus
the chain of nested loaders attached to it. -/
structure Loader where
  strategy : String
  relation : String
  only : List String
  nestedChain : List (String × String × List String)
deriving DecidableEq

/-- The state of the SQLAlchemy `select` being built: `selectFields = none`
is a full-entity `select(model)`, `some cols` a narrow `select(*cols)`. -/
structure Query where
  selectFields : Option (List String)
  joins : List String
  whereClauses : List Clause
  options : List Loader
  orderCols : List (ColRef × Bool)
  limitv : Option Int
  offsetv : Option Int

/-- `select(model_class)`: the query a fresh builder starts from (and the one
a field-selection revert resets to). -/
def emptyQuery : Query :=
  { selectFields := none, joins := [], whereClauses := [], options := [],
    orderCols := [], limitv := none, offsetv := none }

/-- Structured builder error (`QueryBuilderError`); only the message is
modelled. -/
structure QBError where
  message : String

/-- The mutable state of one `QueryBuilder` instance. -/
structure QB where
  modelClass : ModelMeta
  query : Query
  joins_applied : List String
  field_selection_applied : Bool
  selected_fields : Option (List String)
  requires_joins : Bool

/-- `QueryBuilder.__init__`. -/
def initQB (meta : ModelMeta) : QB :=
  { modelClass := meta, query := emptyQuery, joins_applied := [],
    field_selection_applied := false, selected_fields := none,
    requires_joins := false }

/-- `QueryBuilder._build_filter_clause`: dispatch on the operator dict; an
operator outside the table raises (a `ValueError` wrapped into a
`QueryBuilderError`). -/
def buildFilterClause (col : ColRef) (operator : String) (v : Value) :
    Except QBError Clause :=
  match operator with
  | "eq" => .ok (.ceq col v)
  | "ne" => .ok (.cne col v)
  | "gt" => .ok (.cgt col v)
  | "gte" => .ok (.cge col v)
  | "lt" => .ok (.clt col v)
  | "lte" => .ok (.cle col v)
  | "contains" => .ok (.ccontains col (pyStr v))
  | "icontains" => .ok (.cicontains col (pyStr v))
  | "startswith" => .ok (.cstarts col (pyStr v))
  | "endswith" => .ok (.cends col (pyStr v))
  | "in" => .ok (.cin col (toValueList v))
  | "not_in" => .ok (.cnot (.cin col (toValueList v)))
  | "is_null" => .ok (.cisnull col)
  | "is_not_null" => .ok (.cisnotnull col)
  | op => .error ⟨"Error en operador " ++ op ++ ": no soportado"⟩

/-! ## QueryBuilder -/

/-- Character-level worker for `splitPath`. -/
def splitPathChars : List Char → List Char → List String
  | cur, [] => [cur.reverse.asString]
  | cur, c :: rest =>
      if c = '.' then cur.reverse.asString :: splitPathChars [] rest
      else splitPathChars (c :: cur) rest

/-- Python `attribute.split('.')`: split a dot-path into its segments (the
empty string yields `[""]`, exactly as in Python). -/
def splitPath (s : String) : List String := splitPathChars [] s.data

/-- Python `'.' in attribute`. -/
def hasDot (s : String) : Bool := s.data.contains '.'


mutual

/-- `QueryBuilder._analyze_condition_group_joins` together with the per-item
check of `analyze_requirements`: does this condition tree contain a dotted
attribute path? -/
def condHasDot : Cond → Bool
  | .atom a _ _ => hasDot a
  | .group cs _ => condListHasDot cs

/-- Any-element version of `condHasDot` over a condition list. -/
def condListHasDot : List Cond → Bool
  | [] => false
  | c :: rest => condHasDot c || condListHasDot rest

end

/-- `QueryBuilder.analyze_requirements`: decide whether joins will be needed
before any field selection is applied.  Note the early return when the filter
has no conditions, which skips the `order_by` check. -/
def analyze_requirements (qb : QB) (f : Filter) : QB :=
  if f.conditions.isEmpty then qb
  else
    let rj := qb.requires_joins || condListHasDot f.conditions
        || (!(f.order_by == "") && hasDot f.order_by)
    { qb with requires_joins := rj }

/-- `QueryBuilder.apply_field_selection`: validate the requested fields
against the model; when at least one is valid, either replace the query by a
narrow column selection (no joins required) or defer the narrowing, and in
both cases remember the selected field names. -/
def apply_field_selection (qb : QB) (fields : List String) : QB :=
  if fields.isEmpty then qb
  else
    let valid := fields.filter (fun f => pyHasattr qb.modelClass f)
    if valid.isEmpty then qb
    else if qb.requires_joins then { qb with selected_fields := some valid }
    else
      { qb with
        query := { emptyQuery with selectFields := some valid },
        field_selection_applied := true,
        selected_fields := some valid }

/-- The relation-navigation loop of `QueryBuilder._apply_relation_condition`:
walk each non-terminal segment, joining once per
`ModelName.relation` key (reverting a narrow field selection back to a
full-entity select when one was applied), then build the clause on the
terminal column.  Any failure is swallowed (`return None`), keeping the
joins already applied. -/
def relCondGo (db : ModelDB) (qb : QB) (current : ModelMeta)
    (path : List String) (operator : String) (v : Value) : QB × Option Clause :=
  match path with
  | [] => (qb, none)
  | [last] =>
      if pyHasattr current last then
        match buildFilterClause (current.name, last) operator v with
        | .ok c => (qb, some c)
        | .error _ => (qb, none)
      else (qb, none)
  | rel :: rest =>
      if pyHasattr current rel then
        match getRelatedModel db current rel with
        | some relatedMeta =>
            let key := current.name ++ "." ++ rel
            let qb2 :=
              if key ∈ qb.joins_applied then qb
              else if qb.field_selection_applied then
                { qb with
                  query := { emptyQuery with joins := [key] },
                  field_selection_applied := false,
                  joins_applied := qb.joins_applied ++ [key] }
              else
                { qb with
                  query := { qb.query with joins := qb.query.joins ++ [key] },
                  joins_applied := qb.joins_applied ++ [key] }
            relCondGo db qb2 relatedMeta rest operator v
        | none => (qb, none)
      else (qb, none)

mutual

/-- `QueryBuilder._apply_single_condition` for a `Condition` and
`QueryBuilder._apply_condition_group` for a `ConditionGroup`.  A
single-segment attribute missing from the model is logged and dropped
(`none`); a dotted path goes through `relCondGo`; an unsupported operator on
a single-segment path raises a `QueryBuilderError`. -/
def applyCondAny (db : ModelDB) (c : Cond) (qb : QB) :
    Except QBError (QB × Option Clause) :=
  match c with
  | .atom a operator v =>
      (match splitPath a with
       | [single] =>
           if pyHasattr qb.modelClass single then
             match buildFilterClause (qb.modelClass.name, single) operator v with
             | .ok cl => .ok (qb, some cl)
             | .error e =>
                 .error ⟨"Error en condicion " ++ a ++ ": " ++ e.message⟩
           else .ok (qb, none)
       | path => .ok (relCondGo db qb qb.modelClass path operator v))
  | .group cs lop =>
      if cs.isEmpty then .ok (qb, none)
      else do
        let (qb1, clauses) ← applyCondList db cs qb
        if clauses.isEmpty then .ok (qb1, none)
        else if lop = .OR then .ok (qb1, some (.cor clauses))
        else .ok (qb1, some (.cand clauses))

/-- The clause-collecting loop shared by `QueryBuilder.apply_conditions` and
`QueryBuilder._apply_condition_group`: thread the builder state through each
child, keeping the clauses that were produced. -/
def applyCondList (db : ModelDB) (cs : List Cond) (qb : QB) :
    Except QBError (QB × List Clause) :=
  match cs with
  | [] => .ok (qb, [])
  | c :: rest => do
      let (qb1, oc) ← applyCondAny db c qb
      let (qb2, cls) ← applyCondList db rest qb1
      match oc with
      | some cl => .ok (qb2, cl :: cls)
      | none => .ok (qb2, cls)

end

/-- `QueryBuilder.apply_conditions`: collect the clauses of all top-level
conditions and groups and attach them as one combined `where` clause. -/
def apply_conditions (db : ModelDB) (qb : QB) (conds : List Cond)
    (lop : LogicalOperator) : Except QBError QB :=
  if conds.isEmpty then .ok qb
  else do
    let (qb1, clauses) ← applyCondList db conds qb
    if clauses.isEmpty then .ok qb1
    else
      let combined := if lop = .OR then Clause.cor clauses else Clause.cand clauses
      .ok { qb1 with
            query := { qb1.query with
                       whereClauses := qb1.query.whereClauses ++ [combined] } }

/-- `QueryBuilder._apply_relation_loading`: build the eager-load directive for
one relation config (skipping it entirely when the relation is unknown),
restrict its columns to the valid requested fields, attach one chain entry per
resolvable nested relation, and append the loader to the query options. -/
def apply_relation_loading (db : ModelDB) (qb : QB) (rc : RelationConfig) : QB :=
  if pyHasattr qb.modelClass rc.relation_name then
    let loader0 : Loader :=
      { strategy := rc.load_strategy, relation := rc.relation_name,
        only := [], nestedChain := [] }
    let loader1 :=
      if rc.fields.isEmpty then loader0
      else match getRelatedModel db qb.modelClass rc.relation_name with
        | some rm =>
            let vf := rc.fields.filter (fun f => pyHasattr rm f)
            if vf.isEmpty then loader0 else { loader0 with only := vf }
        | none => loader0
    let loader2 :=
      rc.nested_relations.foldl (fun ld nc =>
        match getRelatedModel db qb.modelClass rc.relation_name with
        | some rm =>
            if pyHasattr rm nc.relation_name then
              let nOnly :=
                if nc.fields.isEmpty then []
                else match getRelatedModel db rm nc.relation_name with
                  | some nm =>
                      let nv := nc.fields.filter (fun f => pyHasattr nm f)
                      nv
                  | none => []
              { ld with nestedChain :=
                  ld.nestedChain ++ [(nc.load_strategy, nc.relation_name, nOnly)] }
            else ld
        | none => ld) loader1
    { qb with query := { qb.query with options := qb.query.options ++ [loader2] } }
  else qb

/-- `QueryBuilder.apply_relations`: attach each relation loader, skipping any
relation that errors. -/
def apply_relations (db : ModelDB) (qb : QB) (rs : List RelationConfig) : QB :=
  rs.foldl (fun q rc => apply_relation_loading db q rc) qb

/-- The relation-navigation loop of `QueryBuilder.apply_ordering`: identical
join handling to `relCondGo` (including the field-selection revert), but
resolving to an order column; failures keep the state mutated so far. -/
def orderNavGo (db : ModelDB) (qb : QB) (current : ModelMeta)
    (path : List String) : QB × Option ColRef :=
  match path with
  | [] => (qb, none)
  | [last] =>
      if pyHasattr current last then (qb, some (current.name, last))
      else (qb, none)
  | rel :: rest =>
      if pyHasattr current rel then
        match getRelatedModel db current rel with
        | some relatedMeta =>
            let key := current.name ++ "." ++ rel
            let qb2 :=
              if key ∈ qb.joins_applied then qb
              else if qb.field_selection_applied then
                { qb with
                  query := { emptyQuery with joins := [key] },
                  field_selection_applied := false,
                  joins_applied := qb.joins_applied ++ [key] }
              else
                { qb with
                  query := { qb.query with joins := qb.query.joins ++ [key] },
                  joins_applied := qb.joins_applied ++ [key] }
            orderNavGo db qb2 relatedMeta rest
        | none => (qb, none)
      else (qb, none)

/-- `QueryBuilder.apply_ordering`: resolve the (possibly dotted) order path,
then append an ascending or descending order column; unresolvable paths are a
warning-level no-op. -/
def apply_ordering (db : ModelDB) (qb : QB) (order_by : String)
    (direction : String) : QB :=
  if order_by == "" then qb
  else
    match orderNavGo db qb qb.modelClass (splitPath order_by) with
    | (qb2, some col) =>
        { qb2 with
          query := { qb2.query with
                     orderCols := qb2.query.orderCols ++
                       [(col, direction.toLower == "desc")] } }
    | (qb2, none) => qb2

/-- `QueryBuilder.apply_pagination`. -/
def apply_pagination (qb : QB) (limit offset : Option Int) : QB :=
  let qb1 := match limit with
    | some l => { qb with query := { qb.query with limitv := some l } }
    | none => qb
  match offset with
  | some o => { qb1 with query := { qb1.query with offsetv := some o } }
  | none => qb1

/-! ## Service facade -/

/-- The query-construction part of `BaseServiceWithFilters.get_with_filters`:
analyze requirements, apply (possibly deferred) field selection, conditions,
relation loaders, ordering and pagination, and return the final builder
state. -/
def buildQuery (db : ModelDB) (meta : ModelMeta) (f : Filter) :
    Except QBError QB := do
  let qb := initQB meta
  let qb := analyze_requirements qb f
  let qb := if f.fields.isEmpty then qb else apply_field_selection qb f.fields
  let qb ← if f.conditions.isEmpty then .ok qb
           else apply_conditions db qb f.conditions f.logical_operator
  let qb := if f.relations.isEmpty then qb else apply_relations db qb f.relations
  let qb := if f.order_by == "" then qb
            else apply_ordering db qb f.order_by f.order_direction
  .ok (apply_pagination qb f.limit f.offset)

/-- The post-execution row filter of `get_with_filters`: rebuild each row
object from the deferred field selection plus the configured relation keys
(the `FilteredResult` construction). -/
def postFilterRow (f : Filter) (sf : List String) (r : Value) : Value :=
  match r with
  | .vobj d =>
      let fd := sf.foldl (fun acc fn =>
        match lookupD d fn with
        | some v => dictInsert acc fn v
        | none => acc) []
      let fd :=
        if f.relations.isEmpty then fd
        else f.relations.foldl (fun acc rc =>
          match lookupD d rc.relation_name with
          | some v => dictInsert acc rc.relation_name v
          | none => acc) fd
      .vobj fd
  | other => other

/-- The post-processing step of `get_with_filters`: only when fields were
requested, the builder recorded a non-empty valid selection and joins were
required is the deferred narrowing applied to the returned rows. -/
def postProcess (qb : QB) (f : Filter) (results : List Value) : List Value :=
  match qb.selected_fields with
  | some sf =>
      if !f.fields.isEmpty && !sf.isEmpty && qb.requires_joins then
        results.map (fun r => postFilterRow f sf r)
      else results
  | none => results

/-- `BaseServiceWithFilters.get_with_filters`: build the plan, execute it
against the external session (`exec`), and post-process the rows. -/
def get_with_filters (db : ModelDB) (meta : ModelMeta)
    (exec : Query → List Value) (f : Filter) : Except QBError (List Value) := do
  let qb ← buildQuery db meta f
  .ok (postProcess qb f (exec qb.query))

/-! ## Execution semantics for a single table -/

mutual

/-- Structural equality of values (the equality the modelled database uses
for `==` comparisons). -/
def valueEq : Value → Value → Bool
  | .vnull, .vnull => true
  | .vint a, .vint b => a == b
  | .vstr a, .vstr b => a == b
  | .vbool a, .vbool b => a == b
  | .vlist a, .vlist b => valueListEq a b
  | .vobj a, .vobj b => dictValEq a b
  | _, _ => false

/-- Element-wise equality of value lists. -/
def valueListEq : List Value → List Value → Bool
  | [], [] => true
  | a :: as, b :: bs => valueEq a b && valueListEq as bs
  | _, _ => false

/-- Entry-wise equality of dicts. -/
def dictValEq : Dict → Dict → Bool
  | [], [] => true
  | (k1, v1) :: as, (k2, v2) :: bs => k1 == k2 && valueEq v1 v2 && dictValEq as bs
  | _, _ => false

end

/-- Ordering used for `gt`/`lt` comparisons: defined on ints and strings,
false elsewhere. -/
def valueLt : Value → Value → Bool
  | .vint a, .vint b => a < b
  | .vstr a, .vstr b => a < b
  | _, _ => false

/-- The column value of a row. -/
def lookupRow (r : Value) (col : ColRef) : Option Value :=
  match r with
  | .vobj d => lookupD d col.2
  | _ => none

/-- Case-insensitive / case-sensitive substring test for the `contains`
family. -/
def strContainsSub (h n : String) : Bool := decide (n.toList <:+: h.toList)

mutual

/-- Evaluation of a clause on one row: the single-table semantics the
modelled external database gives to the built predicate. -/
def evalClause (r : Value) : Clause → Bool
  | .ceq col v => match lookupRow r col with
      | some w => valueEq w v
      | none => false
  | .cne col v => match lookupRow r col with
      | some w => !valueEq w v
      | none => false
  | .cgt col v => match lookupRow r col with
      | some w => valueLt v w
      | none => false
  | .cge col v => match lookupRow r col with
      | some w => valueLt v w || valueEq w v
      | none => false
  | .clt col v => match lookupRow r col with
      | some w => valueLt w v
      | none => false
  | .cle col v => match lookupRow r col with
      | some w => valueLt w v || valueEq w v
      | none => false
  | .ccontains col s => match lookupRow r col with
      | some (.vstr t) => strContainsSub t s
      | _ => false
  | .cicontains col s => match lookupRow r col with
      | some (.vstr t) => strContainsSub t.toLower s.toLower
      | _ => false
  | .cstarts col s => match lookupRow r col with
      | some (.vstr t) => t.startsWith s
      | _ => false
  | .cends col s => match lookupRow r col with
      | some (.vstr t) => t.endsWith s
      | _ => false
  | .cin col vs => match lookupRow r col with
      | some w => vs.any (fun v => valueEq w v)
      | none => false
  | .cisnull col => match lookupRow r col with
      | some .vnull => true
      | some _ => false
      | none => true
  | .cisnotnull col => match lookupRow r col with
      | some .vnull => false
      | some _ => true
      | none => false
  | .cnot c => !evalClause r c
  | .cand cs => evalClauseAll r cs
  | .cor cs => evalClauseAny r cs

/-- `and_(*clauses)`: conjunction of a clause list. -/
def evalClauseAll (r : Value) : List Clause → Bool
  | [] => true
  | c :: rest => evalClause r c && evalClauseAll r rest

/-- `or_(*clauses)`: disjunction of a clause list. -/
def evalClauseAny (r : Value) : List Clause → Bool
  | [] => false
  | c :: rest => evalClause r c || evalClauseAny r rest

end

/-- Single-table execution semantics of a built query: filter by the `where`
clauses, then apply offset and limit.  Joins are not materialised and
ordering permutes rows only, so neither affects the claims proved below. -/
def execQuery (table : List Value) (q : Query) : List Value :=
  let rows := table.filter (fun r => q.whereClauses.all (fun c => evalClause r c))
  let rows := rows.drop (q.offsetv.getD 0).toNat
  match q.limitv with
  | some l => rows.take l.toNat
  | none => rows

/-- The count-query construction of
`BaseServiceWithFilters.count_with_filters`: a fresh builder receiving only
the conditions; relations, fields, ordering and pagination are never
applied. -/
def count_query (db : ModelDB) (meta : ModelMeta) (f : Filter) :
    Except QBError Query := do
  let qb := initQB meta
  let qb ← if f.conditions.isEmpty then .ok qb
           else apply_conditions db qb f.conditions f.logical_operator
  .ok qb.query

/-- `BaseServiceWithFilters.count_with_filters`: count the rows of the
conditions-only query (`select(func.count()).select_from(query.subquery())`);
builder errors fall back to `0`. -/
def count_with_filters (db : ModelDB) (meta : ModelMeta) (table : List Value)
    (f : Filter) : Int :=
  match count_query db meta f with
  | .ok q => Int.ofNat (execQuery table q).length
  | .error _ => 0

/-! ## Clean response mode -/

/-- The non-`None` field-copying loop of `_clean_single_relation` (and of
`_clean_dict_none_values`). -/
def cleanFieldsGo (d : Dict) (ftp : List String) (acc : Dict) : Dict :=
  match ftp with
  | [] => acc
  | f :: rest =>
      let acc2 := match lookupD d f with
        | some v => match v with
            | .vnull => acc
            | w => dictInsert acc f w
        | none => acc
      cleanFieldsGo d rest acc2

mutual

/-- `BaseServiceWithFilters._clean_single_relation`: convert one related
record to a dict, keep only the non-`None` requested fields (all fields when
none are requested), recursively clean the nested relations, and return
`None` (here `vnull`) when nothing is left.  Non-dict items pass through. -/
def clean_single_relation (rc : RelationConfig) (item : Value) : Value :=
  match item with
  | .vobj d =>
      let ftp := if rc.fields.isEmpty then dictKeys d else rc.fields
      let cleaned := cleanFieldsGo d ftp []
      let cleaned :=
        if rc.nested_relations.isEmpty then cleaned
        else clean_relations_none_values cleaned rc.nested_relations
      if cleaned.isEmpty then .vnull else .vobj cleaned
  | other => other
termination_by (sizeOf rc, 0, 0)
decreasing_by
  simp_wf
  cases rc with
  | mk n s f r => simp [RelationConfig.nested_relations]; omega

/-- `BaseServiceWithFilters._clean_relations_none_values` (whose body is
identical to `_clean_nested_relations`): for each configured relation key
present with a non-`None` value, replace a list value by the list of its
truthy cleanings, and replace a single value by its cleaning — deleting the
key when the cleaning is falsy. -/
def clean_relations_none_values (d : Dict) (cfgs : List RelationConfig) : Dict :=
  match cfgs with
  | [] => d
  | rc :: rest =>
      let d2 :=
        match lookupD d rc.relation_name with
        | none => d
        | some relationData =>
            match relationData with
            | .vnull => d
            | .vlist xs =>
                dictInsert d rc.relation_name (.vlist (cleanListGo rc xs))
            | single =>
                let c := clean_single_relation rc single
                if pyFalsy c then eraseKey d rc.relation_name
                else dictInsert d rc.relation_name c
      clean_relations_none_values d2 rest
termination_by (sizeOf cfgs, 1, 0)

/-- The list loop inside the cleaning pass: clean each item and keep the
truthy results. -/
def cleanListGo (rc : RelationConfig) (xs : List Value) : List Value :=
  match xs with
  | [] => []
  | x :: rest =>
      let c := clean_single_relation rc x
      if pyFalsy c then cleanListGo rc rest
      else c :: cleanListGo rc rest
termination_by (sizeOf rc, 1, sizeOf xs)

end

/-! ## Helper predicates used by the theorems -/

mutual

/-- All operators occurring in a condition tree belong to the validated set
(every condition built through the DSL satisfies this). -/
def condOpsValid : Cond → Bool
  | .atom _ operator _ => operator ∈ allowedOperators
  | .group cs _ => condListOpsValid cs

/-- All-elements version of `condOpsValid` over a condition list. -/
def condListOpsValid : List Cond → Bool
  | [] => true
  | c :: rest => condOpsValid c && condListOpsValid rest

end

mutual

/-- All attributes occurring in a condition tree are single-segment (contain
no dot). -/
def condSingleSeg : Cond → Bool
  | .atom a _ _ => !hasDot a
  | .group cs _ => condListSingleSeg cs

/-- All-elements version of `condSingleSeg` over a condition list. -/
def condListSingleSeg : List Cond → Bool
  | [] => true
  | c :: rest => condSingleSeg c && condListSingleSeg rest

end

mutual

/-- The atoms of a condition tree, in order. -/
def condAtoms : Cond → List (String × String × Value)
  | .atom a operator v => [(a, operator, v)]
  | .group cs _ => condListAtoms cs

/-- The atoms of a condition list, in order. -/
def condListAtoms : List Cond → List (String × String × Value)
  | [] => []
  | c :: rest => condAtoms c ++ condListAtoms rest

end

/-- The join keys the builder generates while navigating an attribute path
(one `Model.relation` key per resolvable non-terminal segment, stopping at
the first failure). -/
def pathJoinKeys (db : ModelDB) (m : ModelMeta) : List String → List String
  | [] => []
  | [_] => []
  | rel :: rest =>
      if pyHasattr m rel then
        match getRelatedModel db m rel with
        | some m2 => (m.name ++ "." ++ rel) :: pathJoinKeys db m2 rest
        | none => []
      else []

mutual

/-- The semantics of a single-segment condition tree on one row, mirroring
the drop-if-unknown behaviour of the builder: `none` means the condition
contributes no clause. -/
def condClauseSem (meta : ModelMeta) (r : Value) : Cond → Option Bool
  | .atom a operator v =>
      (match splitPath a with
       | [single] =>
           if pyHasattr meta single then
             match buildFilterClause (meta.name, single) operator v with
             | .ok c => some (evalClause r c)
             | .error _ => none
           else none
       | _ => none)
  | .group cs lop =>
      if cs.isEmpty then none
      else
        let rs := condSemList meta r cs
        if rs.isEmpty then none
        else if lop = .OR then some (rs.any id) else some (rs.all id)

/-- The boolean contributions of a list of conditions on one row, dropped
conditions omitted. -/
def condSemList (meta : ModelMeta) (r : Value) : List Cond → List Bool
  | [] => []
  | c :: rest =>
      match condClauseSem meta r c with
      | some b => b :: condSemList meta r rest
      | none => condSemList meta r rest

end

/-- Whether a row satisfies the top-level condition list the way the built
query does: dropped conditions contribute nothing, an empty clause list
matches everything. -/
def rowMatchesTop (meta : ModelMeta) (r : Value) (cs : List Cond)
    (lop : LogicalOperator) : Bool :=
  let rs := condSemList meta r cs
  if rs.isEmpty then true
  else if lop = .OR then rs.any id else rs.all id

mutual

/-- Well-formedness of a relation-config list: relation names are distinct at
every nesting level (Python callers build one config per relation). -/
def rrWF (rr : List RelationConfig) : Bool :=
  decide (relNamesOf rr).Nodup && rrAllWF rr
termination_by (sizeOf rr, 1)

/-- Pointwise well-formedness of the nested configs. -/
def rrAllWF : List RelationConfig → Bool
  | [] => true
  | .mk _ _ _ nested :: rest => rrWF nested && rrAllWF rest
termination_by rr => (sizeOf rr, 0)

end

/-- The dict of an object value (empty for non-objects); used to state
properties of projected records. -/
def asDict : Value → Dict
  | .vobj d => d
  | _ => []

/-! ## Concrete fixtures (used by witnesses and counterexamples) -/

/-- Test model `Post` of `src/database/models/test/post.py`. -/
def postMeta : ModelMeta :=
  { name := "Post", fields := ["id", "title", "author_id"],
    relations := [("author", "Author")] }

/-- Test model `Author` of `src/database/models/test/author.py`. -/
def authorMeta : ModelMeta :=
  { name := "Author", fields := ["id", "email", "name"],
    relations := [("profile", "Profile")] }

/-- Test model `Profile` of `src/database/models/test/profile.py`. -/
def profileMeta : ModelMeta :=
  { name := "Profile", fields := ["id", "bio"], relations := [] }

def testDB : ModelDB := [postMeta, authorMeta, profileMeta]

def postRow1 : Value :=
  .vobj [("id", .vint 1), ("title", .vstr "A"), ("author_id", .vint 10)]

def postRow2 : Value :=
  .vobj [("id", .vint 2), ("title", .vstr "B"), ("author_id", .vint 11)]

def postRow3 : Value :=
  .vobj [("id", .vint 3), ("title", .vstr "C"), ("author_id", .vint 10)]

def postTable : List Value := [postRow1, postRow2, postRow3]

/-- A filter with no conditions, a narrow field list and a dotted
`order_by` — the configuration on which the upfront join analysis returns
early. -/
def c1filter : Filter :=
  { conditions := [], logical_operator := .AND, relations := [],
    fields := ["id"], limit := some 10, offset := some 0,
    order_by := "author.email", order_direction := "asc" }

/-- The value non-clean projection stores for one configured relation, as a
lookup-level specification (`none` when the key is absent or `None`). -/
def relProjSpec (d : Dict) (rc : RelationConfig) : Option Value :=
  match lookupD d rc.relation_name with
  | some .vnull => none
  | some v => some (filterRelationRecursive v rc.fields rc.nested_relations)
  | none => none

/-- Invariant tying the joins recorded on the built query to the builder's
`joins_applied` bookkeeping set: no duplicate joins ever appear. -/
def JoinInv (qb : QB) : Prop :=
  qb.query.joins.Nodup ∧ (∀ k ∈ qb.query.joins, k ∈ qb.joins_applied) ∧
  qb.joins_applied.Nodup

/-- Two conditions through the same relation (`author.email`, `author.name`):
the built plan must contain a single join. -/
def c5filter : Filter :=
  { conditions := [.atom "author.email" "eq" (.vstr "x"),
                   .atom "author.name" "eq" (.vstr "y")],
    logical_operator := .AND, relations := [], fields := [],
    limit := some 10, offset := some 0, order_by := "",
    order_direction := "asc" }

/-- The builder state `buildQuery` produces for `c5filter`. -/
def c5builtQB : QB :=
  { modelClass := postMeta,
    query := { selectFields := none, joins := ["Post.author"],
               whereClauses := [.cand [.ceq ("Author", "email") (.vstr "x"),
                                       .ceq ("Author", "name") (.vstr "y")]],
               options := [], orderCols := [], limitv := some 10,
               offsetv := some 0 },
    joins_applied := ["Post.author"], field_selection_applied := false,
    selected_fields := none, requires_joins := true }

/-- A single-segment condition filter used to exercise the count facade. -/
def c7filter : Filter :=
  { conditions := [.atom "id" "gt" (.vint 1)], logical_operator := .AND,
    relations := [], fields := [], limit := some 1, offset := some 1,
    order_by := "", order_direction := "asc" }

/-- `c7filter` with different pagination, fields, relations and ordering:
the count must not change. -/
def c7filterVariant : Filter :=
  { conditions := [.atom "id" "gt" (.vint 1)], logical_operator := .AND,
    relations := [.mk "author" "select" [] []], fields := ["title"],
    limit := some 99, offset := some 5, order_by := "title",
    order_direction := "desc" }

/-- Builder-state relation used to track the deferred-field-selection path:
starting from a builder that has not applied a narrow selection, every later
stage keeps the plan full-entity and preserves the recorded selection and the
join-requirement flag. -/
def FSInv (qb qb2 : QB) : Prop :=
  qb2.field_selection_applied = false ∧
  qb2.query.selectFields = qb.query.selectFields ∧
  qb2.requires_joins = qb.requires_joins ∧
  qb2.selected_fields = qb.selected_fields

/-- A filter with a narrow field list and a dotted condition path: the
upfront analysis must detect the join and defer the narrowing. -/
def c1goodFilter : Filter :=
  { conditions := [.atom "author.email" "eq" (.vstr "x")],
    logical_operator := .AND, relations := [], fields := ["id"],
    limit := some 10, offset := some 0, order_by := "",
    order_direction := "asc" }

/-- The builder state `buildQuery` produces for `c1goodFilter`. -/
def c1goodQB : QB :=
  { modelClass := postMeta,
    query := { selectFields := none, joins := ["Post.author"],
               whereClauses := [.cand [.ceq ("Author", "email") (.vstr "x")]],
               options := [], orderCols := [], limitv := some 10,
               offsetv := some 0 },
    joins_applied := ["Post.author"], field_selection_applied := false,
    selected_fields := some ["id"], requires_joins := true }

/-- A filter whose only condition names an attribute that does not exist on
the entity. -/
def c2filter : Filter :=
  { conditions := [.atom "bogus" "eq" (.vint 5)], logical_operator := .AND,
    relations := [], fields := [], limit := some 10, offset := some 0,
    order_by := "", order_direction := "asc" }

end CTC

namespace CTC

/-! ## Dictionary lemmas -/

@[simp] theorem dictKeys_nil : dictKeys [] = [] := rfl

@[simp] theorem dictKeys_cons (k2 : String) (w : Value) (rest : Dict) :
    dictKeys ((k2, w) :: rest) = k2 :: dictKeys rest := rfl

theorem dictKeys_append (d1 d2 : Dict) :
    dictKeys (d1 ++ d2) = dictKeys d1 ++ dictKeys d2 := by
  simp [dictKeys]

@[simp] theorem lookupD_nil (k : String) : lookupD [] k = none := rfl

@[simp] theorem lookupD_cons (k2 : String) (w : Value) (rest : Dict)
    (k : String) :
    lookupD ((k2, w) :: rest) k = if k2 = k then some w else lookupD rest k :=
  rfl

theorem lookupD_eq_none (d : Dict) (k : String) (h : k ∉ dictKeys d) :
    lookupD d k = none := by
  induction d with
  | nil => rfl
  | cons p rest ih =>
      obtain ⟨k2, w⟩ := p
      simp only [dictKeys_cons, List.mem_cons, not_or] at h
      have : ¬ k2 = k := fun hx => h.1 hx.symm
      simp [this, ih h.2]

theorem lookupD_isSome_of_mem (d : Dict) (k : String) (h : k ∈ dictKeys d) :
    (lookupD d k).isSome = true := by
  induction d with
  | nil => simp at h
  | cons p rest ih =>
      obtain ⟨k2, w⟩ := p
      by_cases hk : k2 = k
      · simp [hk]
      · simp only [dictKeys_cons, List.mem_cons] at h
        rcases h with h | h
        · exact absurd h.symm hk
        · simp [hk, ih h]

theorem lookupD_append (d1 d2 : Dict) (k : String) :
    lookupD (d1 ++ d2) k =
      match lookupD d1 k with
      | some v => some v
      | none => lookupD d2 k := by
  induction d1 with
  | nil => simp
  | cons p rest ih =>
      obtain ⟨k2, w⟩ := p
      by_cases hk : k2 = k
      · simp [hk]
      · simp [hk, ih]

theorem dictKeys_dictInsert (d : Dict) (k : String) (v : Value) :
    dictKeys (dictInsert d k v) =
      if k ∈ dictKeys d then dictKeys d else dictKeys d ++ [k] := by
  induction d with
  | nil => simp [dictInsert]
  | cons p rest ih =>
      obtain ⟨k2, w⟩ := p
      by_cases hk : k2 = k
      · simp [dictInsert, hk]
      · have : ¬ k = k2 := fun hx => hk hx.symm
        by_cases hm : k ∈ dictKeys rest
        · simp [dictInsert, hk, hm, ih, this]
        · simp [dictInsert, hk, hm, ih, this]

theorem dictKeys_nodup_dictInsert (d : Dict) (k : String) (v : Value)
    (h : (dictKeys d).Nodup) : (dictKeys (dictInsert d k v)).Nodup := by
  rw [dictKeys_dictInsert]
  by_cases hm : k ∈ dictKeys d
  · simpa [hm] using h
  · simp only [hm, if_false]
    rw [List.nodup_append]
    refine ⟨h, List.nodup_singleton k, ?_⟩
    intro a ha hb
    simp at hb
    subst hb
    exact hm ha

theorem dictInsert_of_not_mem (d : Dict) (k : String) (v : Value)
    (h : k ∉ dictKeys d) : dictInsert d k v = d ++ [(k, v)] := by
  induction d with
  | nil => rfl
  | cons p rest ih =>
      obtain ⟨k2, w⟩ := p
      simp only [dictKeys_cons, List.mem_cons, not_or] at h
      have : ¬ k2 = k := fun hx => h.1 hx.symm
      simp [dictInsert, this, ih h.2]

theorem lookupD_dictInsert_self (d : Dict) (k : String) (v : Value) :
    lookupD (dictInsert d k v) k = some v := by
  induction d with
  | nil => simp [dictInsert]
  | cons p rest ih =>
      obtain ⟨k2, w⟩ := p
      by_cases hk : k2 = k
      · simp [dictInsert, hk]
      · simp [dictInsert, hk, ih]

theorem lookupD_dictInsert_ne (d : Dict) (k k3 : String) (v : Value)
    (h : k3 ≠ k) : lookupD (dictInsert d k v) k3 = lookupD d k3 := by
  induction d with
  | nil => simp [dictInsert, Ne.symm h]
  | cons p rest ih =>
      obtain ⟨k2, w⟩ := p
      by_cases hk : k2 = k
      · subst hk
        simp [dictInsert, Ne.symm h]
      · simp only [dictInsert, if_neg hk]
        by_cases hk3 : k2 = k3
        · simp [hk3]
        · simp [hk3, ih]

@[simp] theorem eraseKey_nil (k : String) : eraseKey [] k = [] := rfl

@[simp] theorem eraseKey_cons (k2 : String) (w : Value) (rest : Dict)
    (k : String) :
    eraseKey ((k2, w) :: rest) k =
      if k2 = k then eraseKey rest k else (k2, w) :: eraseKey rest k := by
  by_cases hk : k2 = k
  · simp [eraseKey, List.filter_cons, hk]
  · simp [eraseKey, List.filter_cons, hk]

theorem lookupD_eraseKey_self (d : Dict) (k : String) :
    lookupD (eraseKey d k) k = none := by
  induction d with
  | nil => rfl
  | cons p rest ih =>
      obtain ⟨k2, w⟩ := p
      by_cases hk : k2 = k
      · simpa [hk] using ih
      · simpa [hk] using ih

theorem lookupD_eraseKey_ne (d : Dict) (k k3 : String) (h : k3 ≠ k) :
    lookupD (eraseKey d k) k3 = lookupD d k3 := by
  induction d with
  | nil => rfl
  | cons p rest ih =>
      obtain ⟨k2, w⟩ := p
      by_cases hk : k2 = k
      · subst hk
        simp [Ne.symm h, ih]
      · simp [hk, ih]

/-! ## Projection lemmas -/

theorem baseFieldsGo_lookup_preserved (d : Dict) (ns : List String)
    (k : String) (hk : k ∈ ns) :
    ∀ (rf : List String) (acc : Dict),
      lookupD (baseFieldsGo d ns rf acc) k = lookupD acc k := by
  intro rf
  induction rf with
  | nil => intro acc; rfl
  | cons f rest ih =>
      intro acc
      simp only [baseFieldsGo]
      cases hd : lookupD d f with
      | none => exact ih acc
      | some v =>
          by_cases hf : f ∈ ns
          · simp only [if_pos hf]
            exact ih acc
          · simp only [if_neg hf]
            rw [ih (dictInsert acc f v),
                lookupD_dictInsert_ne acc f k v (fun hx => hf (hx ▸ hk))]

theorem baseAllGo_lookup_preserved (ns : List String) (k : String)
    (hk : k ∈ ns) :
    ∀ (entries : Dict) (acc : Dict),
      lookupD (baseAllGo ns entries acc) k = lookupD acc k := by
  intro entries
  induction entries with
  | nil => intro acc; rfl
  | cons p rest ih =>
      intro acc
      obtain ⟨k2, w⟩ := p
      simp only [baseAllGo]
      by_cases h2 : k2 ∈ ns
      · simp only [if_pos h2]
        exact ih acc
      · simp only [if_neg h2]
        rw [ih (dictInsert acc k2 w),
            lookupD_dictInsert_ne acc k2 k w (fun hx => h2 (hx ▸ hk))]

/-- A key that is a relation name is never produced by the scalar-fields part
of the projection. -/
theorem baseFields_lookup_none (d : Dict) (rf : List String) (ns : List String)
    (k : String) (hk : k ∈ ns) : lookupD (baseFields d rf ns) k = none := by
  unfold baseFields
  by_cases hrf : rf.isEmpty
  · simp only [hrf, if_pos]
    rw [baseAllGo_lookup_preserved ns k hk d []]
    rfl
  · simp only [hrf, if_neg, Bool.false_eq_true, not_false_iff]
    rw [baseFieldsGo_lookup_preserved d ns k hk rf []]
    rfl

/-- Relation keys whose value on the source object is missing or `None` are
never written by the relation-processing loop. -/
theorem procRelations_lookup_skip (d : Dict) (k : String) :
    ∀ (rr : List RelationConfig) (acc : Dict),
      (∀ rc ∈ rr, rc.relation_name = k →
        lookupD d k = none ∨ lookupD d k = some .vnull) →
      lookupD (procRelations acc d rr) k = lookupD acc k := by
  intro rr
  induction rr with
  | nil => intro acc h; simp [procRelations]
  | cons hd rest ih =>
      intro acc h
      obtain ⟨name, strat, flds, nested⟩ := hd
      simp only [procRelations]
      by_cases hname : name = ""
      · simp only [if_pos hname]
        exact ih acc (fun rc hrc => h rc (List.mem_cons_of_mem _ hrc))
      · simp only [if_neg hname]
        by_cases hk : name = k
        · subst hk
          have := h (.mk name strat flds nested) (List.mem_cons_self _ _) rfl
          rcases this with hnone | hnull
          · simp only [hnone]
            exact ih acc (fun rc hrc => h rc (List.mem_cons_of_mem _ hrc))
          · simp only [hnull]
            exact ih acc (fun rc hrc => h rc (List.mem_cons_of_mem _ hrc))
        · cases hd : lookupD d name with
          | none =>
              simp only [hd]
              exact ih acc (fun rc hrc => h rc (List.mem_cons_of_mem _ hrc))
          | some v =>
              simp only [hd]
              cases v with
              | vnull =>
                  exact ih acc (fun rc hrc => h rc (List.mem_cons_of_mem _ hrc))
              | vint n =>
                  rw [ih _ (fun rc hrc => h rc (List.mem_cons_of_mem _ hrc)),
                      lookupD_dictInsert_ne acc name k _ (fun hx => hk hx.symm)]
              | vstr t =>
                  rw [ih _ (fun rc hrc => h rc (List.mem_cons_of_mem _ hrc)),
                      lookupD_dictInsert_ne acc name k _ (fun hx => hk hx.symm)]
              | vbool b =>
                  rw [ih _ (fun rc hrc => h rc (List.mem_cons_of_mem _ hrc)),
                      lookupD_dictInsert_ne acc name k _ (fun hx => hk hx.symm)]
              | vlist xs =>
                  rw [ih _ (fun rc hrc => h rc (List.mem_cons_of_mem _ hrc)),
                      lookupD_dictInsert_ne acc name k _ (fun hx => hk hx.symm)]
              | vobj dd =>
                  rw [ih _ (fun rc hrc => h rc (List.mem_cons_of_mem _ hrc)),
                      lookupD_dictInsert_ne acc name k _ (fun hx => hk hx.symm)]

/-- With distinct relation names, a present non-`None` relation key ends up
bound to the recursive projection of its value. -/
theorem procRelations_lookup_hit (d : Dict) :
    ∀ (rr : List RelationConfig) (acc : Dict) (rc : RelationConfig)
      (k : String) (v : Value),
      (relNamesOf rr).Nodup → rc ∈ rr → rc.relation_name = k → k ≠ "" →
      lookupD d k = some v → v ≠ .vnull →
      lookupD (procRelations acc d rr) k =
        some (filterRelationRecursive v rc.fields rc.nested_relations) := by
  intro rr
  induction rr with
  | nil => intro acc rc k v _ hrc; exact absurd hrc (List.not_mem_nil rc)
  | cons hd rest ih =>
      intro acc rc k v hnd hrc hname hke hv hvn
      obtain ⟨name, strat, flds, nested⟩ := hd
      simp only [relNamesOf, List.map_cons, List.nodup_cons,
        RelationConfig.relation_name] at hnd
      rcases List.mem_cons.mp hrc with heq | hmem
      · subst heq
        simp only [RelationConfig.relation_name] at hname
        subst hname
        simp only [RelationConfig.fields, RelationConfig.nested_relations]
        simp only [procRelations, if_neg hke, hv]
        have hskip : ∀ acc2 : Dict,
            lookupD (procRelations acc2 d rest) name = lookupD acc2 name := by
          intro acc2
          refine procRelations_lookup_skip d name rest acc2 ?_
          intro rc2 hrc2 hname2
          exact absurd
            (hname2 ▸ List.mem_map_of_mem RelationConfig.relation_name hrc2)
            hnd.1
        cases v with
        | vnull => exact absurd rfl hvn
        | vint n => rw [hskip, lookupD_dictInsert_self]
        | vstr t => rw [hskip, lookupD_dictInsert_self]
        | vbool b => rw [hskip, lookupD_dictInsert_self]
        | vlist xs => rw [hskip, lookupD_dictInsert_self]
        | vobj dd => rw [hskip, lookupD_dictInsert_self]
      · have hne : name ≠ k := by
          intro hx
          refine hnd.1 ?_
          rw [hx, ← hname]
          exact List.mem_map_of_mem RelationConfig.relation_name hmem
        simp only [procRelations]
        by_cases hempty : name = ""
        · simp only [if_pos hempty]
          exact ih acc rc k v hnd.2 hmem hname hke hv hvn
        · simp only [if_neg hempty]
          cases hdl : lookupD d name with
          | none => exact ih acc rc k v hnd.2 hmem hname hke hv hvn
          | some w =>
              cases w with
              | vnull => exact ih acc rc k v hnd.2 hmem hname hke hv hvn
              | vint n => exact ih _ rc k v hnd.2 hmem hname hke hv hvn
              | vstr t => exact ih _ rc k v hnd.2 hmem hname hke hv hvn
              | vbool b => exact ih _ rc k v hnd.2 hmem hname hke hv hvn
              | vlist xs => exact ih _ rc k v hnd.2 hmem hname hke hv hvn
              | vobj dd => exact ih _ rc k v hnd.2 hmem hname hke hv hvn

/-! ## Claim C3: a `None`-valued relation key under non-clean projection -/

/-- C3 counterexample: projecting a record whose configured relation key
holds `None` drops the key entirely — `_filter_single_object` only assigns
the key when the relation value `is not None` — contradicting the claim that
the key is kept with value `None`. -/
theorem c3_counterexample :
    filterSingleObject (.vobj [("id", .vint 1), ("author", .vnull)]) ["id"]
        [.mk "author" "select" ["email"] []] = .vobj [("id", .vint 1)] ∧
    lookupD (asDict (filterSingleObject
        (.vobj [("id", .vint 1), ("author", .vnull)]) ["id"]
        [.mk "author" "select" ["email"] []])) "author" = none := by
  constructor <;>
    simp [filterSingleObject, procRelations, baseFields, baseFieldsGo,
      relNamesOf, asDict, dictInsert, RelationConfig.relation_name]

/-- C3 (amended): for every record whose configured relation key holds
`None`, non-clean projection omits that key from the output (it is neither
kept as `None` nor replaced — the `relation_data is not None` guard in
`_filter_single_object` skips the assignment, and relation names are excluded
from the scalar-fields loop). -/
theorem c3_none_relation_key_omitted (d : Dict) (rf : List String)
    (rr : List RelationConfig) (rc : RelationConfig) (hrc : rc ∈ rr)
    (hnull : lookupD d rc.relation_name = some .vnull) :
    lookupD (asDict (filterSingleObject (.vobj d) rf rr))
      rc.relation_name = none := by
  have hfso : filterSingleObject (.vobj d) rf rr =
      .vobj (procRelations (baseFields d rf (relNamesOf rr)) d rr) := by
    simp [filterSingleObject]
  rw [hfso]
  simp only [asDict]
  rw [procRelations_lookup_skip d rc.relation_name rr _
      (fun rc2 _ hname2 => Or.inr (hname2 ▸ hnull))]
  exact baseFields_lookup_none d rf (relNamesOf rr) rc.relation_name
    (List.mem_map_of_mem RelationConfig.relation_name hrc)

/-- Witness for the amended C3 at a concrete record. -/
theorem c3_witness :
    lookupD (asDict (filterSingleObject
        (.vobj [("id", .vint 7), ("owner", .vnull)]) []
        [.mk "owner" "select" [] []])) "owner" = none :=
  c3_none_relation_key_omitted [("id", .vint 7), ("owner", .vnull)] []
    [.mk "owner" "select" [] []] (.mk "owner" "select" [] [])
    (List.mem_singleton.mpr rfl) (by simp [RelationConfig.relation_name])

/-! ## Claim C4: empty-list relations survive projection verbatim -/

/-- C4: a configured relation key holding an empty list is kept and bound to
the empty list by non-clean projection (never `None`, never omitted, never a
scalar); moreover `_filter_relation_recursive` maps list values to lists and
single objects to single objects, so projection never changes list-vs-scalar
identity. -/
theorem c4_empty_list_relation_preserved (d : Dict) (rf : List String)
    (rr : List RelationConfig) (rc : RelationConfig)
    (hnd : (relNamesOf rr).Nodup) (hrc : rc ∈ rr)
    (hne : rc.relation_name ≠ "")
    (hval : lookupD d rc.relation_name = some (.vlist [])) :
    lookupD (asDict (filterSingleObject (.vobj d) rf rr))
        rc.relation_name = some (.vlist []) ∧
    (∀ xs, ∃ ys, filterRelationRecursive (.vlist xs) rf rr = .vlist ys) ∧
    (∀ dd, ∃ ee, filterRelationRecursive (.vobj dd) rf rr = .vobj ee) := by
  refine ⟨?_, ?_, ?_⟩
  · have hfso : filterSingleObject (.vobj d) rf rr =
        .vobj (procRelations (baseFields d rf (relNamesOf rr)) d rr) := by
      simp [filterSingleObject]
    rw [hfso]
    simp only [asDict]
    rw [procRelations_lookup_hit d rr _ rc rc.relation_name (.vlist [])
        hnd hrc rfl hne hval (by intro hx; cases hx)]
    simp [filterRelationRecursive, pyFalsy]
  · intro xs
    by_cases hxs : xs.isEmpty
    · exact ⟨xs, by simp [filterRelationRecursive, pyFalsy, hxs]⟩
    · refine ⟨xs.attach.map (fun x => filterSingleObject x.1 rf rr), ?_⟩
      simp [filterRelationRecursive, pyFalsy, hxs]
  · intro dd
    by_cases hdd : dd.isEmpty
    · exact ⟨dd, by simp [filterRelationRecursive, pyFalsy, hdd]⟩
    · refine ⟨procRelations (baseFields dd rf (relNamesOf rr)) dd rr, ?_⟩
      simp [filterRelationRecursive, pyFalsy, hdd, filterSingleObject]

/-- Witness for C4 at a concrete record with an empty-list relation. -/
theorem c4_witness :
    lookupD (asDict (filterSingleObject
        (.vobj [("id", .vint 1), ("posts", .vlist [])]) ["id"]
        [.mk "posts" "select" ["title"] []])) "posts" = some (.vlist []) ∧
    (∃ ys, filterRelationRecursive (.vlist []) ["id"]
        [.mk "posts" "select" ["title"] []] = .vlist ys) :=
  have h := c4_empty_list_relation_preserved
    [("id", .vint 1), ("posts", .vlist [])] ["id"]
    [.mk "posts" "select" ["title"] []] (.mk "posts" "select" ["title"] [])
    (by simp [relNamesOf, RelationConfig.relation_name])
    (List.mem_singleton.mpr rfl)
    (by simp [RelationConfig.relation_name])
    (by simp [RelationConfig.relation_name])
  ⟨h.1, h.2.1 []⟩

/-! ## Claim C8: DSL validation at construction time -/

/-- C8: operators outside the closed set are rejected at `Condition`
construction with an error naming the valid operators; `Filter` construction
rejects `limit` outside `1..1000` and negative `offset`; omitted `limit`
defaults to `10` and omitted `offset` to `0`. -/
theorem c8_dsl_validation (a operator : String) (v : Value) (cs : List Cond)
    (lop : LogicalOperator) (rels : List RelationConfig) (flds : List String)
    (ob od : String) (l o : Int) :
    (operator ∉ allowedOperators →
      mkCondition a operator v = .error (operatorErrorMessage operator)) ∧
    ((l < 1 ∨ 1000 < l) →
      (mkFilter cs lop rels flds (some l) (some o) ob od).isOk = false) ∧
    (o < 0 → (mkFilter cs lop rels flds (some l) (some o) ob od).isOk = false) ∧
    mkFilter cs lop rels flds none none ob od =
      .ok { conditions := cs, logical_operator := lop, relations := rels,
            fields := flds, limit := some 10, offset := some 0,
            order_by := ob, order_direction := od } := by
  refine ⟨fun h => ?_, fun h => ?_, fun h => ?_, ?_⟩
  · simp [mkCondition, h]
  · simp [mkFilter, h, Except.isOk, Except.toBool]
  · by_cases hl : l < 1 ∨ 1000 < l
    · simp [mkFilter, hl, Except.isOk, Except.toBool]
    · simp [mkFilter, hl, h, Except.isOk, Except.toBool]
  · simp [mkFilter]

/-- Witness for C8 at concrete inputs: `like` is rejected, `limit = 0` and
`offset = -1` are rejected, omitted pagination defaults to `10` / `0`. -/
theorem c8_witness :
    mkCondition "name" "like" (.vstr "x") =
      .error (operatorErrorMessage "like") ∧
    (mkFilter [] .AND [] [] (some 0) (some 0) "" "asc").isOk = false ∧
    (mkFilter [] .AND [] [] (some 10) (some (-1)) "" "asc").isOk = false ∧
    mkFilter [] .AND [] [] none none "" "asc" =
      .ok { conditions := [], logical_operator := .AND, relations := [],
            fields := [], limit := some 10, offset := some 0,
            order_by := "", order_direction := "asc" } :=
  ⟨(c8_dsl_validation "name" "like" (.vstr "x") [] .AND [] [] "" "asc" 0 0).1
      (by decide),
   (c8_dsl_validation "name" "like" (.vstr "x") [] .AND [] [] "" "asc" 0 0).2.1
      (Or.inl (by norm_num)),
   (c8_dsl_validation "name" "like" (.vstr "x") [] .AND [] [] "" "asc" 10
      (-1)).2.2.1 (by norm_num),
   (c8_dsl_validation "name" "like" (.vstr "x") [] .AND [] [] "" "asc" 0
      0).2.2.2⟩

/-! ## Claim C9: validated operators never hit the unsupported branch -/

/-- Every validated operator has an entry in the dispatch table. -/
theorem buildFilterClause_ok_of_mem (col : ColRef) (operator : String)
    (v : Value) (h : operator ∈ allowedOperators) :
    (buildFilterClause col operator v).isOk = true := by
  simp [allowedOperators] at h
  rcases h with h|h|h|h|h|h|h|h|h|h|h|h|h|h <;> subst h <;> rfl

/-- C9: every operator accepted by `Condition.validate_operator` is a key of
the operator-dispatch table of `QueryBuilder._build_filter_clause`, so
building a clause for a DSL-validated condition never raises the
operator-not-supported error. -/
theorem c9_validated_operator_builds (col : ColRef) (operator : String)
    (v : Value) (h : operator ∈ allowedOperators) :
    (buildFilterClause col operator v).isOk = true :=
  buildFilterClause_ok_of_mem col operator v h

/-- Witness for C9 at a concrete operator. -/
theorem c9_witness :
    (buildFilterClause ("Post", "id") "not_in" (.vint 1)).isOk = true :=
  c9_validated_operator_builds ("Post", "id") "not_in" (.vint 1) (by decide)

/-! ## Claim C10: clean-mode relation shapes -/

theorem clean_relations_nil_dict (cfgs : List RelationConfig) :
    clean_relations_none_values [] cfgs = [] := by
  induction cfgs with
  | nil => simp [clean_relations_none_values]
  | cons rc rest ih =>
      simp only [clean_relations_none_values, lookupD_nil]
      exact ih

theorem cleanFieldsGo_all_null (dd : Dict) (ftp : List String)
    (h : ∀ f ∈ ftp, ∀ v, lookupD dd f = some v → v = .vnull) :
    ∀ acc, cleanFieldsGo dd ftp acc = acc := by
  induction ftp with
  | nil => intro acc; rfl
  | cons f rest ih =>
      intro acc
      simp only [cleanFieldsGo]
      cases hdf : lookupD dd f with
      | none => exact ih (fun g hg => h g (List.mem_cons_of_mem _ hg)) acc
      | some v =>
          have hv := h f (List.mem_cons_self _ _) v hdf
          subst hv
          exact ih (fun g hg => h g (List.mem_cons_of_mem _ hg)) acc

theorem cleanListGo_eq_filter (rc : RelationConfig) (xs : List Value) :
    cleanListGo rc xs =
      (xs.map (fun x => clean_single_relation rc x)).filter
        (fun v => !pyFalsy v) := by
  induction xs with
  | nil => simp [cleanListGo]
  | cons x rest ih =>
      simp only [cleanListGo, List.map_cons, List.filter_cons]
      by_cases hx : pyFalsy (clean_single_relation rc x)
      · simp [hx, ih]
      · simp [hx, ih]

/-- C10: in the clean response mode, a single-valued relation whose cleaned
content is empty — every requested field of the related record is `None` —
has its key deleted from the record, while a list-valued relation always
keeps its key bound to a list: elements that clean to empty are dropped and
the key remains even when the resulting list is empty. -/
theorem c10_clean_relation_shapes (d : Dict) (rc : RelationConfig)
    (dd : Dict) (xs : List Value) :
    (lookupD d rc.relation_name = some (.vobj dd) →
      (∀ f ∈ (if rc.fields.isEmpty then dictKeys dd else rc.fields),
        ∀ v, lookupD dd f = some v → v = .vnull) →
      lookupD (clean_relations_none_values d [rc]) rc.relation_name = none) ∧
    (lookupD d rc.relation_name = some (.vlist xs) →
      lookupD (clean_relations_none_values d [rc]) rc.relation_name =
        some (.vlist ((xs.map (fun x => clean_single_relation rc x)).filter
          (fun v => !pyFalsy v)))) := by
  constructor
  · intro hval hnull
    have hc : clean_single_relation rc (.vobj dd) = .vnull := by
      simp only [clean_single_relation]
      rw [cleanFieldsGo_all_null dd _ hnull []]
      by_cases hnest : rc.nested_relations.isEmpty
      · simp [hnest]
      · simp [hnest, clean_relations_nil_dict]
    simp only [clean_relations_none_values, hval, hc, pyFalsy, if_pos]
    rw [lookupD_eraseKey_self]
  · intro hval
    simp only [clean_relations_none_values, hval]
    rw [lookupD_dictInsert_self, cleanListGo_eq_filter]

/-- Witness for C10 at concrete records: a single relation whose fields are
all `None` disappears; a list relation keeps its key with the empty cleanings
dropped (including down to the empty list). -/
theorem c10_witness :
    lookupD (clean_relations_none_values
        [("id", .vint 1), ("owner", .vobj [("a", .vnull)])]
        [.mk "owner" "select" ["a"] []]) "owner" = none ∧
    lookupD (clean_relations_none_values
        [("id", .vint 1), ("posts", .vlist [.vobj [("t", .vnull)]])]
        [.mk "posts" "select" ["t"] []]) "posts" = some (.vlist []) := by
  constructor
  · exact (c10_clean_relation_shapes
      [("id", .vint 1), ("owner", .vobj [("a", .vnull)])]
      (.mk "owner" "select" ["a"] []) [("a", .vnull)] []).1
      (by simp [RelationConfig.relation_name])
      (by
        intro f hf v hv
        simp [RelationConfig.fields] at hf
        subst hf
        simp at hv
        exact hv.symm)
  · have h := (c10_clean_relation_shapes
      [("id", .vint 1), ("posts", .vlist [.vobj [("t", .vnull)]])]
      (.mk "posts" "select" ["t"] []) [] [.vobj [("t", .vnull)]]).2
      (by simp [RelationConfig.relation_name])
    simp only [RelationConfig.relation_name] at h
    rw [h]
    have hone : clean_single_relation (.mk "posts" "select" ["t"] [])
        (.vobj [("t", .vnull)]) = .vnull := by
      simp [clean_single_relation, cleanFieldsGo, RelationConfig.fields,
        RelationConfig.nested_relations]
    simp [hone, pyFalsy]

/-! ## Claim C2: unknown attribute paths are silently dropped, not fatal -/

/-- C2 counterexample: filtering `Post` on the non-existent attribute
`bogus` does not raise a `QueryBuilderError` — `_apply_single_condition`
logs a warning and returns `None`, the clause list stays empty, and the
query returns every row unfiltered. -/
theorem c2_counterexample :
    get_with_filters testDB postMeta (fun q => execQuery postTable q)
      c2filter = .ok [postRow1, postRow2, postRow3] := by
  have h1 : splitPath "bogus" = ["bogus"] := by decide
  have h2 : pyHasattr postMeta "bogus" = false := by decide
  have h3 : hasDot "bogus" = false := by decide
  simp [get_with_filters, buildQuery, initQB, analyze_requirements,
    condHasDot, apply_conditions, applyCondList, applyCondAny, h1, h2, h3,
    apply_pagination, postProcess, execQuery, emptyQuery, c2filter,
    postTable, Int.toNat, Except.bind, bind, Except.pure, pure]

/-- C2 (amended): a `Condition` whose single-segment attribute does not
exist on the entity is logged and silently dropped: `_apply_single_condition`
returns no clause and no error, and `apply_conditions` leaves the builder
state unchanged, so the query filters on fewer predicates than requested and
no `QueryBuilderError` is raised for the missing attribute. -/
theorem c2_unknown_attribute_dropped (db : ModelDB) (qb : QB)
    (a operator : String) (v : Value) (lop : LogicalOperator)
    (hsingle : splitPath a = [a])
    (hno : pyHasattr qb.modelClass a = false) :
    applyCondAny db (.atom a operator v) qb = .ok (qb, none) ∧
    apply_conditions db qb [.atom a operator v] lop = .ok qb := by
  have h1 : applyCondAny db (.atom a operator v) qb = .ok (qb, none) := by
    simp [applyCondAny, hsingle, hno]
  refine ⟨h1, ?_⟩
  simp [apply_conditions, applyCondList, h1, Except.bind, bind, Except.pure,
    pure]

/-- Witness for the amended C2 at a concrete unknown attribute. -/
theorem c2_witness :
    applyCondAny testDB (.atom "missing_col" "eq" (.vint 5))
      (initQB postMeta) = .ok (initQB postMeta, none) ∧
    apply_conditions testDB (initQB postMeta)
      [.atom "missing_col" "eq" (.vint 5)] .AND = .ok (initQB postMeta) :=
  c2_unknown_attribute_dropped testDB (initQB postMeta) "missing_col" "eq"
    (.vint 5) .AND (by decide) (by decide)

/-! ## Claim C5: join idempotence -/

theorem JoinInv_initQB (meta : ModelMeta) : JoinInv (initQB meta) := by
  refine ⟨List.nodup_nil, ?_, List.nodup_nil⟩
  intro k hk
  exact absurd hk (List.not_mem_nil k)

/-- The join step shared by `_apply_relation_condition` and `apply_ordering`
preserves the invariant. -/
theorem JoinInv_joinStep (qb : QB) (key : String) (h : JoinInv qb) :
    JoinInv (if key ∈ qb.joins_applied then qb
      else if qb.field_selection_applied then
        { qb with
          query := { emptyQuery with joins := [key] },
          field_selection_applied := false,
          joins_applied := qb.joins_applied ++ [key] }
      else
        { qb with
          query := { qb.query with joins := qb.query.joins ++ [key] },
          joins_applied := qb.joins_applied ++ [key] }) := by
  obtain ⟨hnd, hsub, hand⟩ := h
  by_cases hmem : key ∈ qb.joins_applied
  · simpa [hmem] using ⟨hnd, hsub, hand⟩
  · have happ : (qb.joins_applied ++ [key]).Nodup := by
      rw [List.nodup_append]
      exact ⟨hand, List.nodup_singleton key,
        fun a ha hb => by simp at hb; exact (hb ▸ hmem) ha⟩
    by_cases hfsa : qb.field_selection_applied
    · simp only [hmem, if_false, hfsa, if_true]
      refine ⟨List.nodup_singleton key, ?_, happ⟩
      intro k hk
      simp at hk
      simp [hk]
    · simp only [hmem, if_false, hfsa, Bool.false_eq_true]
      refine ⟨?_, ?_, happ⟩
      · rw [List.nodup_append]
        exact ⟨hnd, List.nodup_singleton key,
          fun a ha hb => by simp at hb; exact (hb ▸ hmem) (hsub a ha)⟩
      · intro k hk
        rcases List.mem_append.mp hk with hk | hk
        · exact List.mem_append.mpr (Or.inl (hsub k hk))
        · exact List.mem_append.mpr (Or.inr hk)

theorem relCondGo_JoinInv (db : ModelDB) (operator : String) (v : Value) :
    ∀ (path : List String) (qb : QB) (current : ModelMeta), JoinInv qb →
      JoinInv (relCondGo db qb current path operator v).1 := by
  intro path
  induction path with
  | nil => intro qb current h; exact h
  | cons rel rest ih =>
      intro qb current h
      cases rest with
      | nil =>
          simp only [relCondGo]
          by_cases hha : pyHasattr current rel
          · simp only [if_pos hha]
            cases buildFilterClause (current.name, rel) operator v with
            | ok c => exact h
            | error e => exact h
          · simp only [if_neg hha]
            exact h
      | cons seg2 rest2 =>
          simp only [relCondGo]
          by_cases hha : pyHasattr current rel
          · simp only [if_pos hha]
            cases getRelatedModel db current rel with
            | some relatedMeta =>
                exact ih _ relatedMeta (JoinInv_joinStep qb _ h)
            | none => exact h
          · simp only [if_neg hha]
            exact h

theorem orderNavGo_JoinInv (db : ModelDB) :
    ∀ (path : List String) (qb : QB) (current : ModelMeta), JoinInv qb →
      JoinInv (orderNavGo db qb current path).1 := by
  intro path
  induction path with
  | nil => intro qb current h; exact h
  | cons rel rest ih =>
      intro qb current h
      cases rest with
      | nil =>
          simp only [orderNavGo]
          by_cases hha : pyHasattr current rel
          · simp only [if_pos hha]
            exact h
          · simp only [if_neg hha]
            exact h
      | cons seg2 rest2 =>
          simp only [orderNavGo]
          by_cases hha : pyHasattr current rel
          · simp only [if_pos hha]
            cases getRelatedModel db current rel with
            | some relatedMeta =>
                exact ih _ relatedMeta (JoinInv_joinStep qb _ h)
            | none => exact h
          · simp only [if_neg hha]
            exact h

theorem applyCond_JoinInv (db : ModelDB) :
    ∀ (n : Nat),
      (∀ (c : Cond) (qb qb2 : QB) (oc : Option Clause), sizeOf c ≤ n →
        JoinInv qb → applyCondAny db c qb = .ok (qb2, oc) → JoinInv qb2) ∧
      (∀ (cs : List Cond) (qb qb2 : QB) (cls : List Clause), sizeOf cs ≤ n →
        JoinInv qb → applyCondList db cs qb = .ok (qb2, cls) →
          JoinInv qb2) := by
  intro n
  induction n using Nat.strong_induction_on with
  | _ n ih =>
      constructor
      · intro c qb qb2 oc hsz hinv heq
        cases c with
        | atom a operator v =>
            simp only [applyCondAny] at heq
            cases hsp : splitPath a with
            | nil =>
                simp [hsp, relCondGo] at heq
                obtain ⟨rfl, rfl⟩ := heq
                exact hinv
            | cons s1 srest =>
                cases srest with
                | nil =>
                    simp only [hsp] at heq
                    by_cases hha : pyHasattr qb.modelClass s1
                    · simp only [if_pos hha] at heq
                      cases hbc : buildFilterClause (qb.modelClass.name, s1)
                          operator v with
                      | ok cl =>
                          simp [hbc] at heq
                          obtain ⟨rfl, rfl⟩ := heq
                          exact hinv
                      | error e => simp [hbc] at heq
                    · simp only [if_neg hha] at heq
                      simp at heq
                      obtain ⟨rfl, rfl⟩ := heq
                      exact hinv
                | cons s2 srest2 =>
                    simp only [hsp] at heq
                    simp at heq
                    have hrg := relCondGo_JoinInv db operator v
                      (s1 :: s2 :: srest2) qb qb.modelClass hinv
                    rw [heq] at hrg
                    exact hrg
        | group cs lop =>
            simp only [applyCondAny] at heq
            by_cases hcs : cs.isEmpty
            · simp [hcs] at heq
              obtain ⟨rfl, rfl⟩ := heq
              exact hinv
            · simp only [hcs, Bool.false_eq_true, if_false] at heq
              cases hlist : applyCondList db cs qb with
              | error e => simp [hlist, Except.bind, bind] at heq
              | ok p =>
                  obtain ⟨qb1, clauses⟩ := p
                  have hszcs : sizeOf cs < n := by
                    have : sizeOf cs < sizeOf (Cond.group cs lop) := by
                      simp only [Cond.group.sizeOf_spec]; omega
                    omega
                  have hinv1 := (ih (sizeOf cs) hszcs).2 cs qb qb1 clauses
                    (le_refl _) hinv hlist
                  simp only [hlist, Except.bind, bind] at heq
                  by_cases hcl : clauses.isEmpty
                  · simp [hcl] at heq
                    obtain ⟨rfl, rfl⟩ := heq
                    exact hinv1
                  · simp only [hcl, Bool.false_eq_true, if_false] at heq
                    by_cases hlop : lop = LogicalOperator.OR
                    · simp [hlop] at heq
                      obtain ⟨rfl, rfl⟩ := heq
                      exact hinv1
                    · simp [hlop] at heq
                      obtain ⟨rfl, rfl⟩ := heq
                      exact hinv1
      · intro cs qb qb2 cls hsz hinv heq
        cases cs with
        | nil =>
            simp [applyCondList] at heq
            obtain ⟨rfl, rfl⟩ := heq
            exact hinv
        | cons c rest =>
            simp only [applyCondList] at heq
            cases hc : applyCondAny db c qb with
            | error e => simp [hc, Except.bind, bind] at heq
            | ok p =>
                obtain ⟨qb1, oc⟩ := p
                have hszc : sizeOf c < n := by
                  have : sizeOf c < sizeOf (c :: rest) := by
                    simp only [List.cons.sizeOf_spec]; omega
                  omega
                have hinv1 := (ih (sizeOf c) hszc).1 c qb qb1 oc
                  (le_refl _) hinv hc
                cases hrest : applyCondList db rest qb1 with
                | error e => simp [hc, hrest, Except.bind, bind] at heq
                | ok p2 =>
                    obtain ⟨qb2x, cls2⟩ := p2
                    have hszr : sizeOf rest < n := by
                      have : sizeOf rest < sizeOf (c :: rest) := by
                        simp only [List.cons.sizeOf_spec]; omega
                      omega
                    have hinv2 := (ih (sizeOf rest) hszr).2 rest qb1 qb2x cls2
                      (le_refl _) hinv1 hrest
                    simp only [hc, hrest, Except.bind, bind] at heq
                    cases oc with
                    | some cl =>
                        simp at heq
                        obtain ⟨rfl, rfl⟩ := heq
                        exact hinv2
                    | none =>
                        simp at heq
                        obtain ⟨rfl, rfl⟩ := heq
                        exact hinv2

theorem apply_conditions_JoinInv (db : ModelDB) (qb qb2 : QB)
    (conds : List Cond) (lop : LogicalOperator) (hinv : JoinInv qb)
    (heq : apply_conditions db qb conds lop = .ok qb2) : JoinInv qb2 := by
  simp only [apply_conditions] at heq
  by_cases hc : conds.isEmpty
  · simp [hc] at heq
    rw [← heq]
    exact hinv
  · simp only [hc, Bool.false_eq_true, if_false] at heq
    cases hlist : applyCondList db conds qb with
    | error e => simp [hlist, Except.bind, bind] at heq
    | ok p =>
        obtain ⟨qb1, clauses⟩ := p
        have hinv1 := (applyCond_JoinInv db (sizeOf conds)).2 conds qb qb1
          clauses (le_refl _) hinv hlist
        simp only [hlist, Except.bind, bind] at heq
        by_cases hcl : clauses.isEmpty
        · simp [hcl] at heq
          subst heq
          exact hinv1
        · simp only [hcl, Bool.false_eq_true, if_false] at heq
          simp at heq
          subst heq
          exact ⟨hinv1.1, hinv1.2.1, hinv1.2.2⟩

theorem analyze_requirements_JoinInv (qb : QB) (f : Filter)
    (h : JoinInv qb) : JoinInv (analyze_requirements qb f) := by
  unfold analyze_requirements
  by_cases hc : f.conditions.isEmpty
  · simpa [hc] using h
  · simpa [hc] using h

theorem apply_field_selection_JoinInv (qb : QB) (fields : List String)
    (h : JoinInv qb) : JoinInv (apply_field_selection qb fields) := by
  unfold apply_field_selection
  by_cases h1 : fields.isEmpty
  · simpa [h1] using h
  · simp only [h1, Bool.false_eq_true, if_false]
    by_cases h2 : (fields.filter (fun f => pyHasattr qb.modelClass f)).isEmpty
    · simpa [h2] using h
    · simp only [h2, Bool.false_eq_true, if_false]
      by_cases h3 : qb.requires_joins
      · simpa [h3] using ⟨h.1, h.2.1, h.2.2⟩
      · simp only [h3, Bool.false_eq_true, if_false]
        refine ⟨List.nodup_nil, ?_, h.2.2⟩
        intro k hk
        simp [emptyQuery] at hk
  
theorem apply_relation_loading_JoinInv (db : ModelDB) (qb : QB)
    (rc : RelationConfig) (h : JoinInv qb) :
    JoinInv (apply_relation_loading db qb rc) := by
  unfold apply_relation_loading
  by_cases h1 : pyHasattr qb.modelClass rc.relation_name
  · simpa [h1] using ⟨h.1, h.2.1, h.2.2⟩
  · simpa [h1] using h

theorem apply_relations_JoinInv (db : ModelDB) (rs : List RelationConfig) :
    ∀ (qb : QB), JoinInv qb → JoinInv (apply_relations db qb rs) := by
  unfold apply_relations
  induction rs with
  | nil => intro qb h; exact h
  | cons rc rest ih =>
      intro qb h
      simp only [List.foldl_cons]
      exact ih _ (apply_relation_loading_JoinInv db qb rc h)

theorem apply_ordering_JoinInv (db : ModelDB) (qb : QB) (ob dir : String)
    (h : JoinInv qb) : JoinInv (apply_ordering db qb ob dir) := by
  unfold apply_ordering
  by_cases h1 : ob == ""
  · simpa [h1] using h
  · simp only [h1, Bool.false_eq_true, if_false]
    have := orderNavGo_JoinInv db (splitPath ob) qb qb.modelClass h
    cases hnav : orderNavGo db qb qb.modelClass (splitPath ob) with
    | mk qb2 oc =>
        rw [hnav] at this
        cases oc with
        | some col => simpa using ⟨this.1, this.2.1, this.2.2⟩
        | none => simpa using this

theorem apply_pagination_JoinInv (qb : QB) (limit offset : Option Int)
    (h : JoinInv qb) : JoinInv (apply_pagination qb limit offset) := by
  unfold apply_pagination
  cases limit with
  | some l =>
      cases offset with
      | some o => exact ⟨h.1, h.2.1, h.2.2⟩
      | none => exact ⟨h.1, h.2.1, h.2.2⟩
  | none =>
      cases offset with
      | some o => exact ⟨h.1, h.2.1, h.2.2⟩
      | none => exact h

/-- C5: in every successfully built plan, each relation join path
(`SourceModel.relation` key) is joined at most once: the join list of the
built query has no duplicates, because a join is only added when its key is
absent from `joins_applied` (re-requesting an already-joined path is a
no-op). -/
theorem c5_joins_applied_once (db : ModelDB) (meta : ModelMeta) (f : Filter)
    (qb : QB) (h : buildQuery db meta f = .ok qb) :
    qb.query.joins.Nodup := by
  have hinv2 : JoinInv (if f.fields.isEmpty then
      analyze_requirements (initQB meta) f
    else apply_field_selection (analyze_requirements (initQB meta) f)
      f.fields) := by
    by_cases hf : f.fields.isEmpty
    · simpa [hf] using analyze_requirements_JoinInv (initQB meta) f
        (JoinInv_initQB meta)
    · simpa [hf] using apply_field_selection_JoinInv
        (analyze_requirements (initQB meta) f) f.fields
        (analyze_requirements_JoinInv (initQB meta) f (JoinInv_initQB meta))
  have hrest : ∀ qb3 : QB, JoinInv qb3 →
      (apply_pagination
        (if f.order_by == "" then
          (if f.relations.isEmpty then qb3
            else apply_relations db qb3 f.relations)
          else apply_ordering db
            (if f.relations.isEmpty then qb3
              else apply_relations db qb3 f.relations)
            f.order_by f.order_direction)
        f.limit f.offset).query.joins.Nodup := by
    intro qb3 hinv3
    have hinv4 : JoinInv (if f.relations.isEmpty then qb3
        else apply_relations db qb3 f.relations) := by
      by_cases hr : f.relations.isEmpty
      · simpa [hr] using hinv3
      · simpa [hr] using apply_relations_JoinInv db f.relations qb3 hinv3
    have hinv5 : JoinInv (if f.order_by == "" then
        (if f.relations.isEmpty then qb3
          else apply_relations db qb3 f.relations)
        else apply_ordering db
          (if f.relations.isEmpty then qb3
            else apply_relations db qb3 f.relations)
          f.order_by f.order_direction) := by
      by_cases ho : f.order_by == ""
      · simpa [ho] using hinv4
      · simpa [ho] using apply_ordering_JoinInv db _ f.order_by
          f.order_direction hinv4
    exact (apply_pagination_JoinInv _ f.limit f.offset hinv5).1
  by_cases hc : f.conditions.isEmpty
  · simp only [buildQuery, hc, if_true, Except.bind, bind,
      Except.ok.injEq] at h
    rw [← h]
    exact hrest _ hinv2
  · simp only [buildQuery, hc, Bool.false_eq_true, if_false] at h
    cases hcond : apply_conditions db
        (if f.fields.isEmpty then analyze_requirements (initQB meta) f
          else apply_field_selection (analyze_requirements (initQB meta) f)
            f.fields)
        f.conditions f.logical_operator with
    | error e =>
        rw [hcond] at h
        simp [Except.bind, bind] at h
    | ok qb3 =>
        rw [hcond] at h
        simp only [Except.bind, bind, Except.ok.injEq] at h
        rw [← h]
        exact hrest qb3 (apply_conditions_JoinInv db _ qb3 f.conditions
          f.logical_operator hinv2 hcond)

/-- Witness for C5: two conditions through `author` plus nothing else produce
exactly the single join `Post.author` in the built plan. -/
theorem c5_witness :
    buildQuery testDB postMeta c5filter = .ok c5builtQB ∧
    c5builtQB.query.joins = ["Post.author"] ∧
    c5builtQB.query.joins.Nodup := by
  have e1 : splitPath "author.email" = ["author", "email"] := by decide
  have e2 : splitPath "author.name" = ["author", "name"] := by decide
  have e3 : hasDot "author.email" = true := by decide
  have e4 : pyHasattr postMeta "author" = true := by decide
  have e5 : getRelatedModel testDB postMeta "author" = some authorMeta := by
    decide
  have e6 : pyHasattr authorMeta "email" = true := by decide
  have e7 : pyHasattr authorMeta "name" = true := by decide
  have e8 : postMeta.name ++ "." ++ "author" = "Post.author" := by decide
  have hb : buildQuery testDB postMeta c5filter = .ok c5builtQB := by
    simp +decide [buildQuery, initQB, analyze_requirements, condHasDot, e1,
      e2, e3, e4, e5, e6, e7, e8, apply_conditions, applyCondList,
      applyCondAny, relCondGo, buildFilterClause, apply_pagination,
      emptyQuery, c5filter, c5builtQB, Except.bind, bind]
  exact ⟨hb, rfl, c5_joins_applied_once testDB postMeta c5filter c5builtQB hb⟩

/-! ## Claim C7: counting uses the conditions only -/

theorem splitPathChars_no_dot (cs : List Char) (hnd : '.' ∉ cs) :
    ∀ cur, splitPathChars cur cs = [(cur.reverse ++ cs).asString] := by
  induction cs with
  | nil => intro cur; simp [splitPathChars]
  | cons c rest ih =>
      intro cur
      simp only [List.mem_cons, not_or] at hnd
      have hc : ¬ c = '.' := fun hx => hnd.1 hx.symm
      simp only [splitPathChars, if_neg hc]
      rw [ih hnd.2 (c :: cur)]
      simp

/-- A dot-free attribute splits into the single segment itself. -/
theorem splitPath_single (a : String) (h : hasDot a = false) :
    splitPath a = [a] := by
  have hnm : '.' ∉ a.data := by
    simpa [hasDot] using h
  rw [splitPath, splitPathChars_no_dot a.data hnm []]
  simp [List.asString]

theorem evalClauseAll_eq_map (r : Value) (cs : List Clause) :
    evalClauseAll r cs = (cs.map (fun c => evalClause r c)).all id := by
  induction cs with
  | nil => rfl
  | cons c rest ih => simp [evalClauseAll, ih]

theorem evalClauseAny_eq_map (r : Value) (cs : List Clause) :
    evalClauseAny r cs = (cs.map (fun c => evalClause r c)).any id := by
  induction cs with
  | nil => rfl
  | cons c rest ih => simp [evalClauseAny, ih]

/-- Applying single-segment, DSL-validated conditions leaves the builder
state untouched and yields clauses whose evaluation on any row agrees with
`condSemList`. -/
theorem applyCond_semantics (db : ModelDB) :
    ∀ (n : Nat),
      (∀ (c : Cond) (qb : QB), sizeOf c ≤ n → condSingleSeg c = true →
        condOpsValid c = true →
        ∃ oc, applyCondAny db c qb = .ok (qb, oc) ∧
          ∀ r, oc.map (fun cl => evalClause r cl) =
            condClauseSem qb.modelClass r c) ∧
      (∀ (cs : List Cond) (qb : QB), sizeOf cs ≤ n →
        condListSingleSeg cs = true → condListOpsValid cs = true →
        ∃ cls, applyCondList db cs qb = .ok (qb, cls) ∧
          ∀ r, cls.map (fun cl => evalClause r cl) =
            condSemList qb.modelClass r cs) := by
  intro n
  induction n using Nat.strong_induction_on with
  | _ n ih =>
      constructor
      · intro c qb hsz hss hops
        cases c with
        | atom a operator v =>
            have hdot : hasDot a = false := by
              simpa [condSingleSeg] using hss
            have hmem : operator ∈ allowedOperators := by
              simpa [condOpsValid] using hops
            have hsp := splitPath_single a hdot
            cases hha : pyHasattr qb.modelClass a with
            | true =>
                have hok := buildFilterClause_ok_of_mem
                  (qb.modelClass.name, a) operator v hmem
                cases hbc : buildFilterClause (qb.modelClass.name, a)
                    operator v with
                | error e => rw [hbc] at hok; simp [Except.isOk, Except.toBool] at hok
                | ok cl =>
                    refine ⟨some cl, ?_, ?_⟩
                    · simp [applyCondAny, hsp, hha, hbc]
                    · intro r
                      simp [condClauseSem, hsp, hha, hbc]
            | false =>
                refine ⟨none, ?_, ?_⟩
                · simp [applyCondAny, hsp, hha]
                · intro r
                  simp [condClauseSem, hsp, hha]
        | group cs lop =>
            by_cases hcs : cs.isEmpty
            · refine ⟨none, ?_, ?_⟩
              · simp [applyCondAny, hcs]
              · intro r
                simp [condClauseSem, hcs]
            · have hsscs : condListSingleSeg cs = true := by
                simpa [condSingleSeg] using hss
              have hopscs : condListOpsValid cs = true := by
                simpa [condOpsValid] using hops
              have hszcs : sizeOf cs < n := by
                have h2 : sizeOf cs < sizeOf (Cond.group cs lop) := by
                  simp only [Cond.group.sizeOf_spec]; omega
                omega
              obtain ⟨cls, hlist, hsem⟩ := (ih (sizeOf cs) hszcs).2 cs qb
                (le_refl _) hsscs hopscs
              by_cases hcl : cls.isEmpty
              · refine ⟨none, ?_, ?_⟩
                · simp [applyCondAny, hcs, hlist, Except.bind, bind, hcl]
                · intro r
                  have : condSemList qb.modelClass r cs = [] := by
                    rw [← hsem r]
                    simp [List.isEmpty_iff.mp hcl]
                  simp [condClauseSem, hcs, this]
              · refine ⟨some (if lop = .OR then .cor cls else .cand cls),
                  ?_, ?_⟩
                · by_cases hlop : lop = LogicalOperator.OR
                  · simp [applyCondAny, hcs, hlist, Except.bind, bind, hcl,
                      hlop]
                  · simp [applyCondAny, hcs, hlist, Except.bind, bind, hcl,
                      hlop]
                · intro r
                  have hrs : condSemList qb.modelClass r cs =
                      cls.map (fun cl => evalClause r cl) := (hsem r).symm
                  have hne : (condSemList qb.modelClass r cs).isEmpty =
                      false := by
                    rw [hrs]
                    cases hc2 : cls with
                    | nil => rw [hc2] at hcl; simp at hcl
                    | cons x xs => simp
                  have hclne : cls ≠ [] := by
                    intro hx
                    rw [hx] at hcl
                    simp at hcl
                  by_cases hlop : lop = LogicalOperator.OR
                  · simp [condClauseSem, hcs, hne, hlop, hrs,
                      evalClause, evalClauseAny_eq_map, hclne]
                  · have hand : lop = LogicalOperator.AND := by
                      cases lop with
                      | AND => rfl
                      | OR => exact absurd rfl hlop
                    simp [condClauseSem, hcs, hne, hand, hrs,
                      evalClause, evalClauseAll_eq_map, hclne]
      · intro cs qb hsz hss hops
        cases cs with
        | nil =>
            refine ⟨[], by simp [applyCondList], ?_⟩
            intro r
            simp [condSemList]
        | cons c rest =>
            have hssc : condSingleSeg c = true ∧
                condListSingleSeg rest = true := by
              have := hss
              simp [condListSingleSeg] at this
              exact this
            have hopsc : condOpsValid c = true ∧
                condListOpsValid rest = true := by
              have := hops
              simp [condListOpsValid] at this
              exact this
            have hszc : sizeOf c < n := by
              have h2 : sizeOf c < sizeOf (c :: rest) := by
                simp only [List.cons.sizeOf_spec]; omega
              omega
            have hszr : sizeOf rest < n := by
              have h2 : sizeOf rest < sizeOf (c :: rest) := by
                simp only [List.cons.sizeOf_spec]; omega
              omega
            obtain ⟨oc, hc, hsemc⟩ := (ih (sizeOf c) hszc).1 c qb
              (le_refl _) hssc.1 hopsc.1
            obtain ⟨cls, hrest, hsemr⟩ := (ih (sizeOf rest) hszr).2 rest qb
              (le_refl _) hssc.2 hopsc.2
            cases oc with
            | some cl =>
                refine ⟨cl :: cls, ?_, ?_⟩
                · simp [applyCondList, hc, hrest, Except.bind, bind]
                · intro r
                  have h1 := hsemc r
                  simp at h1
                  simp [condSemList, ← h1, hsemr r]
            | none =>
                refine ⟨cls, ?_, ?_⟩
                · simp [applyCondList, hc, hrest, Except.bind, bind]
                · intro r
                  have h1 := hsemc r
                  simp at h1
                  simp [condSemList, ← h1, hsemr r]

/-- C7: `count_with_filters` builds its count query from the conditions
only — changing `limit`, `offset`, `fields`, `relations` or the ordering
never changes the count, the count query carries no pagination, ordering,
loaders or column narrowing, and (for single-segment DSL-validated condition
sets) the returned integer is the total number of table rows matching the
conditions. -/
theorem c7_count_conditions_only (db : ModelDB) (meta : ModelMeta)
    (table : List Value) (f : Filter) (l o : Option Int) (fl : List String)
    (rl : List RelationConfig) (ob od : String)
    (hss : condListSingleSeg f.conditions = true)
    (hops : condListOpsValid f.conditions = true) :
    count_with_filters db meta table
        { f with limit := l, offset := o, fields := fl, relations := rl,
                 order_by := ob, order_direction := od } =
      count_with_filters db meta table f ∧
    (∀ q, count_query db meta f = .ok q →
      q.limitv = none ∧ q.offsetv = none ∧ q.options = [] ∧
      q.orderCols = [] ∧ q.selectFields = none) ∧
    count_with_filters db meta table f =
      Int.ofNat ((table.filter (fun r =>
        rowMatchesTop meta r f.conditions f.logical_operator)).length) := by
  by_cases hc : f.conditions.isEmpty
  · have hcs : f.conditions = [] := List.isEmpty_iff.mp hc
    have hq : count_query db meta f = .ok emptyQuery := by
      simp [count_query, hc, Except.bind, bind, initQB]
    refine ⟨rfl, ?_, ?_⟩
    · intro q hqq
      rw [hq] at hqq
      simp at hqq
      rw [← hqq]
      simp [emptyQuery]
    · have hrm : ∀ r ∈ table, rowMatchesTop meta r f.conditions
          f.logical_operator = true := by
        intro r _
        simp [rowMatchesTop, hcs, condSemList]
      rw [List.filter_congr hrm]
      simp [count_with_filters, hq, execQuery, emptyQuery]
  · obtain ⟨cls, hlist, hsem0⟩ := (applyCond_semantics db
      (sizeOf f.conditions)).2 f.conditions (initQB meta) (le_refl _)
      hss hops
    have hsem : ∀ r, cls.map (fun cl => evalClause r cl) =
        condSemList meta r f.conditions := by
      intro r
      simpa [initQB] using hsem0 r
    by_cases hcl : cls.isEmpty
    · have hclnil : cls = [] := List.isEmpty_iff.mp hcl
      have hq : count_query db meta f = .ok emptyQuery := by
        simp only [count_query, hc, Bool.false_eq_true, if_false,
          apply_conditions, hlist, Except.bind, bind, hcl, if_true]
        simp [initQB]
      refine ⟨rfl, ?_, ?_⟩
      · intro q hqq
        rw [hq] at hqq
        simp at hqq
        rw [← hqq]
        simp [emptyQuery]
      · have hrm : ∀ r ∈ table, rowMatchesTop meta r f.conditions
            f.logical_operator = true := by
          intro r _
          have h0 := hsem r
          rw [hclnil] at h0
          simp only [List.map_nil] at h0
          simp [rowMatchesTop, ← h0]
        rw [List.filter_congr hrm]
        simp [count_with_filters, hq, execQuery, emptyQuery]
    · have hclne : cls ≠ [] := fun hx => by rw [hx] at hcl; simp at hcl
      have hq : count_query db meta f = .ok
          { emptyQuery with whereClauses :=
              [if f.logical_operator = .OR then Clause.cor cls
               else Clause.cand cls] } := by
        simp only [count_query, hc, Bool.false_eq_true, if_false,
          apply_conditions, hlist, Except.bind, bind, hcl]
        by_cases hlop : f.logical_operator = LogicalOperator.OR
        · simp [initQB, emptyQuery, hlop]
        · simp [initQB, emptyQuery, hlop]
      refine ⟨rfl, ?_, ?_⟩
      · intro q hqq
        rw [hq] at hqq
        simp at hqq
        rw [← hqq]
        simp [emptyQuery]
      · have hpred : ∀ r ∈ table,
            rowMatchesTop meta r f.conditions f.logical_operator =
            evalClause r (if f.logical_operator = .OR then Clause.cor cls
              else Clause.cand cls) := by
          intro r _
          have h0 := hsem r
          have hne : (condSemList meta r f.conditions).isEmpty = false := by
            rw [← h0]
            cases hc2 : cls with
            | nil => exact absurd hc2 hclne
            | cons x xs => simp
          by_cases hlop : f.logical_operator = LogicalOperator.OR
          · simp [rowMatchesTop, hne, hlop, evalClause,
              evalClauseAny_eq_map, ← h0, hclne]
          · have hand : f.logical_operator = LogicalOperator.AND := by
              cases h2 : f.logical_operator with
              | AND => rfl
              | OR => exact absurd h2 hlop
            simp [rowMatchesTop, hne, hand, evalClause,
              evalClauseAll_eq_map, ← h0, hclne]
        rw [List.filter_congr hpred]
        simp [count_with_filters, hq, execQuery, emptyQuery]

/-- Witness for C7: the count of `Post` rows with `id > 1` ignores limit,
offset, fields, relations and ordering, and equals the number of matching
rows. -/
theorem c7_witness :
    count_with_filters testDB postMeta postTable c7filterVariant =
      count_with_filters testDB postMeta postTable c7filter ∧
    count_with_filters testDB postMeta postTable c7filter =
      Int.ofNat ((postTable.filter (fun r =>
        rowMatchesTop postMeta r c7filter.conditions
          c7filter.logical_operator)).length) :=
  have h := c7_count_conditions_only testDB postMeta postTable c7filter
    (some 99) (some 5) ["title"] [.mk "author" "select" [] []] "title"
    "desc" (by decide) (by decide)
  ⟨h.1, h.2.2⟩

/-! ## Claim C6: projection idempotence — support lemmas -/

theorem dictKeys_dictInsert_mem (d : Dict) (k k2 : String) (v : Value)
    (h : k2 ∈ dictKeys (dictInsert d k v)) : k2 ∈ dictKeys d ∨ k2 = k := by
  rw [dictKeys_dictInsert] at h
  by_cases hm : k ∈ dictKeys d
  · rw [if_pos hm] at h
    exact Or.inl h
  · rw [if_neg hm] at h
    rcases List.mem_append.mp h with h | h
    · exact Or.inl h
    · simp at h
      exact Or.inr h

theorem baseFieldsGo_keys_not_ns (d : Dict) (ns : List String) :
    ∀ (rf : List String) (acc : Dict),
      (∀ k ∈ dictKeys acc, k ∉ ns) →
      ∀ k ∈ dictKeys (baseFieldsGo d ns rf acc), k ∉ ns := by
  intro rf
  induction rf with
  | nil => intro acc hacc; exact hacc
  | cons f rest ih =>
      intro acc hacc
      simp only [baseFieldsGo]
      cases hd : lookupD d f with
      | none => exact ih acc hacc
      | some v =>
          by_cases hf : f ∈ ns
          · simp only [if_pos hf]
            exact ih acc hacc
          · simp only [if_neg hf]
            refine ih (dictInsert acc f v) ?_
            intro k hk
            rcases dictKeys_dictInsert_mem acc f k v hk with hk | hk
            · exact hacc k hk
            · rw [hk]; exact hf

theorem baseFieldsGo_keys_nodup (d : Dict) (ns : List String) :
    ∀ (rf : List String) (acc : Dict),
      (dictKeys acc).Nodup → (dictKeys (baseFieldsGo d ns rf acc)).Nodup := by
  intro rf
  induction rf with
  | nil => intro acc hacc; exact hacc
  | cons f rest ih =>
      intro acc hacc
      simp only [baseFieldsGo]
      cases hd : lookupD d f with
      | none => exact ih acc hacc
      | some v =>
          by_cases hf : f ∈ ns
          · simp only [if_pos hf]
            exact ih acc hacc
          · simp only [if_neg hf]
            exact ih _ (dictKeys_nodup_dictInsert acc f v hacc)

theorem baseAllGo_keys_not_ns (ns : List String) :
    ∀ (entries : Dict) (acc : Dict),
      (∀ k ∈ dictKeys acc, k ∉ ns) →
      ∀ k ∈ dictKeys (baseAllGo ns entries acc), k ∉ ns := by
  intro entries
  induction entries with
  | nil => intro acc hacc; exact hacc
  | cons p rest ih =>
      intro acc hacc
      obtain ⟨k2, w⟩ := p
      simp only [baseAllGo]
      by_cases h2 : k2 ∈ ns
      · simp only [if_pos h2]
        exact ih acc hacc
      · simp only [if_neg h2]
        refine ih (dictInsert acc k2 w) ?_
        intro k hk
        rcases dictKeys_dictInsert_mem acc k2 k w hk with hk | hk
        · exact hacc k hk
        · rw [hk]; exact h2

theorem baseAllGo_keys_nodup (ns : List String) :
    ∀ (entries : Dict) (acc : Dict),
      (dictKeys acc).Nodup → (dictKeys (baseAllGo ns entries acc)).Nodup := by
  intro entries
  induction entries with
  | nil => intro acc hacc; exact hacc
  | cons p rest ih =>
      intro acc hacc
      obtain ⟨k2, w⟩ := p
      simp only [baseAllGo]
      by_cases h2 : k2 ∈ ns
      · simp only [if_pos h2]
        exact ih acc hacc
      · simp only [if_neg h2]
        exact ih _ (dictKeys_nodup_dictInsert acc k2 w hacc)

/-- The scalar-field part never produces relation-name keys and has distinct
keys. -/
theorem baseFields_keys (d : Dict) (rf ns : List String) :
    (∀ k ∈ dictKeys (baseFields d rf ns), k ∉ ns) ∧
    (dictKeys (baseFields d rf ns)).Nodup := by
  unfold baseFields
  by_cases hrf : rf.isEmpty
  · simp only [hrf, if_pos]
    exact ⟨baseAllGo_keys_not_ns ns d [] (by simp), 
           baseAllGo_keys_nodup ns d [] (by simp)⟩
  · simp only [hrf, Bool.false_eq_true, if_false]
    exact ⟨baseFieldsGo_keys_not_ns d ns rf [] (by simp),
           baseFieldsGo_keys_nodup d ns rf [] (by simp)⟩

/-- Lookup characterization of the requested-fields loop (keys outside the
relation-name set). -/
theorem baseFieldsGo_lookup (d : Dict) (ns : List String) (k : String)
    (hk : k ∉ ns) :
    ∀ (rf : List String) (acc : Dict),
      lookupD (baseFieldsGo d ns rf acc) k =
        if k ∈ rf ∧ (lookupD d k).isSome then lookupD d k
        else lookupD acc k := by
  intro rf
  induction rf with
  | nil =>
      intro acc
      simp [baseFieldsGo]
  | cons f rest ih =>
      intro acc
      simp only [baseFieldsGo]
      by_cases hfk : f = k
      · subst hfk
        cases hd : lookupD d f with
        | none =>
            rw [ih acc]
            simp [hd]
        | some v =>
            simp only [if_neg hk]
            rw [ih (dictInsert acc f v)]
            by_cases hrest : f ∈ rest ∧ (lookupD d f).isSome
            · simp [hrest, hd]
            · simp only [hrest, if_false, hd]
              simp [lookupD_dictInsert_self, hd]
      · have hiff : (k ∈ f :: rest ∧ (lookupD d k).isSome) ↔
            (k ∈ rest ∧ (lookupD d k).isSome) := by
          constructor
          · rintro ⟨hm, hs⟩
            rcases List.mem_cons.mp hm with hm | hm
            · exact absurd hm.symm hfk
            · exact ⟨hm, hs⟩
          · rintro ⟨hm, hs⟩
            exact ⟨List.mem_cons_of_mem _ hm, hs⟩
        cases hd : lookupD d f with
        | none =>
            rw [ih acc]
            rw [if_congr hiff rfl rfl]
        | some v =>
            by_cases hf : f ∈ ns
            · simp only [if_pos hf]
              rw [ih acc, if_congr hiff rfl rfl]
            · simp only [if_neg hf]
              rw [ih (dictInsert acc f v),
                  lookupD_dictInsert_ne acc f k v (fun hx => hfk hx.symm),
                  if_congr hiff rfl rfl]

/-- Congruence for the requested-fields loop: two source dicts that agree on
all non-relation keys of `rf` produce the same output. -/
theorem baseFieldsGo_congr (d1 d2 : Dict) (ns : List String)
    (rf : List String)
    (hagree : ∀ f ∈ rf, f ∉ ns → lookupD d1 f = lookupD d2 f) :
    ∀ acc, baseFieldsGo d1 ns rf acc = baseFieldsGo d2 ns rf acc := by
  induction rf with
  | nil => intro acc; rfl
  | cons f rest ih =>
      intro acc
      have hrest : ∀ g ∈ rest, g ∉ ns → lookupD d1 g = lookupD d2 g :=
        fun g hg => hagree g (List.mem_cons_of_mem _ hg)
      simp only [baseFieldsGo]
      by_cases hf : f ∈ ns
      · cases h1 : lookupD d1 f with
        | none =>
            cases h2 : lookupD d2 f with
            | none => exact ih hrest acc
            | some w =>
                simp only [if_pos hf]
                exact ih hrest acc
        | some v =>
            simp only [if_pos hf]
            cases h2 : lookupD d2 f with
            | none => exact ih hrest acc
            | some w =>
                simp only [if_pos hf]
                exact ih hrest acc
      · have heq := hagree f (List.mem_cons_self _ _) hf
        rw [heq]
        cases h2 : lookupD d2 f with
        | none => exact ih hrest acc
        | some v =>
            simp only [if_neg hf]
            exact ih hrest (dictInsert acc f v)

/-- On entries with fresh, distinct keys, the all-fields loop appends the
non-relation entries. -/
theorem baseAllGo_append (ns : List String) :
    ∀ (entries : Dict) (acc : Dict),
      (dictKeys entries).Nodup →
      (∀ kv ∈ entries, kv.1 ∉ dictKeys acc) →
      baseAllGo ns entries acc =
        acc ++ entries.filter (fun kv => kv.1 ∉ ns) := by
  intro entries
  induction entries with
  | nil => intro acc _ _; simp [baseAllGo]
  | cons p rest ih =>
      intro acc hnd hfresh
      obtain ⟨k2, w⟩ := p
      simp only [dictKeys_cons, List.nodup_cons] at hnd
      simp only [baseAllGo, List.filter_cons]
      by_cases h2 : k2 ∈ ns
      · simp only [if_pos h2]
        have : (decide ((k2, w).1 ∉ ns)) = false := by simp [h2]
        rw [this]
        simp only [Bool.false_eq_true, if_false]
        exact ih acc hnd.2
          (fun kv hkv => hfresh kv (List.mem_cons_of_mem _ hkv))
      · simp only [if_neg h2]
        have hdec : (decide ((k2, w).1 ∉ ns)) = true := by simp [h2]
        rw [hdec]
        simp only [if_true]
        have hk2acc : k2 ∉ dictKeys acc :=
          hfresh (k2, w) (List.mem_cons_self _ _)
        rw [dictInsert_of_not_mem acc k2 w hk2acc]
        rw [ih (acc ++ [(k2, w)]) hnd.2 ?_]
        · simp
        · intro kv hkv
          rw [dictKeys_append]
          intro hmem
          rcases List.mem_append.mp hmem with hm | hm
          · exact hfresh kv (List.mem_cons_of_mem _ hkv) hm
          · simp [dictKeys] at hm
            exact hnd.1 (hm ▸ List.mem_map_of_mem Prod.fst hkv)

theorem procRelations_keys (d : Dict) :
    ∀ (rr : List RelationConfig) (acc : Dict),
      ∀ k ∈ dictKeys (procRelations acc d rr),
        k ∈ dictKeys acc ∨ k ∈ relNamesOf rr := by
  intro rr
  induction rr with
  | nil =>
      intro acc k hk
      simp only [procRelations] at hk
      exact Or.inl hk
  | cons hd rest ih =>
      intro acc k hk
      obtain ⟨name, strat, flds, nested⟩ := hd
      simp only [procRelations] at hk
      by_cases hname : name = ""
      · rw [if_pos hname] at hk
        rcases ih acc k hk with h | h
        · exact Or.inl h
        · exact Or.inr (List.mem_cons_of_mem _ h)
      · rw [if_neg hname] at hk
        cases hdl : lookupD d name with
        | none =>
            rw [hdl] at hk
            rcases ih acc k hk with h | h
            · exact Or.inl h
            · exact Or.inr (List.mem_cons_of_mem _ h)
        | some v =>
            rw [hdl] at hk
            have hstep : ∀ acc2 : Dict,
                (∀ k2 ∈ dictKeys acc2, k2 ∈ dictKeys acc ∨ k2 = name) →
                k ∈ dictKeys (procRelations acc2 d rest) →
                k ∈ dictKeys acc ∨ k ∈ relNamesOf
                  (RelationConfig.mk name strat flds nested :: rest) := by
              intro acc2 hacc2 hk2
              rcases ih acc2 k hk2 with h | h
              · rcases hacc2 k h with h2 | h2
                · exact Or.inl h2
                · refine Or.inr ?_
                  rw [h2]
                  simp [relNamesOf, RelationConfig.relation_name]
              · exact Or.inr (by
                  simp only [relNamesOf, List.map_cons, List.mem_cons]
                  exact Or.inr (by simpa [relNamesOf] using h))
            cases v with
            | vnull => 
                exact hstep acc (fun k2 h2 => Or.inl h2) hk
            | vint n =>
                exact hstep _ (fun k2 h2 =>
                  dictKeys_dictInsert_mem acc name k2 _ h2) hk
            | vstr t =>
                exact hstep _ (fun k2 h2 =>
                  dictKeys_dictInsert_mem acc name k2 _ h2) hk
            | vbool b =>
                exact hstep _ (fun k2 h2 =>
                  dictKeys_dictInsert_mem acc name k2 _ h2) hk
            | vlist xs =>
                exact hstep _ (fun k2 h2 =>
                  dictKeys_dictInsert_mem acc name k2 _ h2) hk
            | vobj dd =>
                exact hstep _ (fun k2 h2 =>
                  dictKeys_dictInsert_mem acc name k2 _ h2) hk

/-- With distinct relation names fresh for the accumulator, relation
processing appends its entries. -/
theorem procRelations_append (d : Dict) :
    ∀ (rr : List RelationConfig) (acc : Dict),
      (relNamesOf rr).Nodup →
      (∀ rc ∈ rr, rc.relation_name ∉ dictKeys acc) →
      procRelations acc d rr = acc ++ procRelations [] d rr := by
  intro rr
  induction rr with
  | nil => intro acc _ _; simp [procRelations]
  | cons hd rest ih =>
      intro acc hnd hfresh
      obtain ⟨name, strat, flds, nested⟩ := hd
      simp only [relNamesOf, List.map_cons, List.nodup_cons,
        RelationConfig.relation_name] at hnd
      have hfreshr : ∀ rc ∈ rest, rc.relation_name ∉ dictKeys acc :=
        fun rc hrc => hfresh rc (List.mem_cons_of_mem _ hrc)
      simp only [procRelations]
      by_cases hname : name = ""
      · rw [if_pos hname, if_pos hname]
        exact ih acc hnd.2 hfreshr
      · rw [if_neg hname, if_neg hname]
        cases hdl : lookupD d name with
        | none => exact ih acc hnd.2 hfreshr
        | some v =>
            have hnameacc : name ∉ dictKeys acc := by
              have := hfresh (.mk name strat flds nested)
                (List.mem_cons_self _ _)
              simpa [RelationConfig.relation_name] using this
            have hmain : ∀ w : Value,
                procRelations (dictInsert acc name w) d rest =
                acc ++ procRelations (dictInsert [] name w) d rest := by
              intro w
              rw [dictInsert_of_not_mem acc name w hnameacc]
              have h1 : dictInsert ([] : Dict) name w = [(name, w)] := rfl
              rw [h1]
              rw [ih (acc ++ [(name, w)]) hnd.2 ?_, ih [(name, w)] hnd.2 ?_]
              · simp
              · intro rc hrc
                simp only [dictKeys_cons, dictKeys_nil, List.mem_singleton]
                intro hx
                exact hnd.1 (hx ▸ List.mem_map_of_mem
                  RelationConfig.relation_name hrc)
              · intro rc hrc
                rw [dictKeys_append]
                intro hmem
                rcases List.mem_append.mp hmem with hm | hm
                · exact hfreshr rc hrc hm
                · simp at hm
                  exact hnd.1 (hm ▸ List.mem_map_of_mem
                    RelationConfig.relation_name hrc)
            cases v with
            | vnull => exact ih acc hnd.2 hfreshr
            | vint n => exact hmain _
            | vstr t => exact hmain _
            | vbool b => exact hmain _
            | vlist xs => exact hmain _
            | vobj dd => exact hmain _

/-- The recursive relation projection never turns a non-`None` value into
`None`. -/
theorem filterRelationRecursive_ne_null (v : Value) (rf : List String)
    (rr : List RelationConfig) (h : v ≠ .vnull) :
    filterRelationRecursive v rf rr ≠ .vnull := by
  cases v with
  | vnull => exact absurd rfl h
  | vint n =>
      by_cases hf : pyFalsy (.vint n)
      · simp [filterRelationRecursive, hf]
      · simp [filterRelationRecursive, hf]
  | vstr t =>
      by_cases hf : pyFalsy (.vstr t)
      · simp [filterRelationRecursive, hf]
      · simp [filterRelationRecursive, hf]
  | vbool b =>
      by_cases hf : pyFalsy (.vbool b)
      · simp [filterRelationRecursive, hf]
      · simp [filterRelationRecursive, hf]
  | vlist xs =>
      by_cases hf : pyFalsy (.vlist xs)
      · simp [filterRelationRecursive, hf]
      · simp [filterRelationRecursive, hf]
  | vobj dd =>
      by_cases hf : pyFalsy (.vobj dd)
      · simp [filterRelationRecursive, hf]
      · simp [filterRelationRecursive, hf, filterSingleObject]

/-- Mapping a function of the element over `attach` is mapping it over the
list. -/
theorem attach_map_fn {α β : Type} (l : List α) (g : α → β) :
    l.attach.map (fun x => g x.1) = l.map g := by
  conv_rhs => rw [← List.attach_map_subtype_val l]
  rw [List.map_map]
  rfl

/-- Unfolding step of the relation loop when the relation value is present
and not `None`. -/
theorem procRelations_cons_store (acc d : Dict) (name strat : String)
    (flds : List String) (nested rest : List RelationConfig)
    (hname : name ≠ "") (v : Value) (hdl : lookupD d name = some v)
    (hv : v ≠ .vnull) :
    procRelations acc d (.mk name strat flds nested :: rest) =
    procRelations (dictInsert acc name
      (filterRelationRecursive v flds nested)) d rest := by
  cases v with
  | vnull => exact absurd rfl hv
  | vint n => simp [procRelations, if_neg hname, hdl]
  | vstr t => simp [procRelations, if_neg hname, hdl]
  | vbool b => simp [procRelations, if_neg hname, hdl]
  | vlist xs => simp [procRelations, if_neg hname, hdl]
  | vobj dd => simp [procRelations, if_neg hname, hdl]

/-- Unfolding step of the relation loop when the step stores nothing. -/
theorem procRelations_cons_skip (acc d : Dict) (name strat : String)
    (flds : List String) (nested rest : List RelationConfig)
    (h : name = "" ∨ lookupD d name = none ∨
      lookupD d name = some .vnull) :
    procRelations acc d (.mk name strat flds nested :: rest) =
    procRelations acc d rest := by
  rcases h with h | h | h
  · simp only [procRelations, if_pos h]
  · by_cases hname : name = ""
    · simp only [procRelations, if_pos hname]
    · simp only [procRelations, if_neg hname, h]
  · by_cases hname : name = ""
    · simp only [procRelations, if_pos hname]
    · simp only [procRelations, if_neg hname, h]

/-- For a present, non-`None` relation value, `relProjSpec` yields the
recursive projection of that value. -/
theorem relProjSpec_of_ne_null (d : Dict) (name strat : String)
    (flds : List String) (nested : List RelationConfig) (v : Value)
    (hdl : lookupD d name = some v) (hv : v ≠ .vnull) :
    relProjSpec d (.mk name strat flds nested) =
    some (filterRelationRecursive v flds nested) := by
  cases v with
  | vnull => exact absurd rfl hv
  | vint n => simp [relProjSpec, RelationConfig.relation_name,
      RelationConfig.fields, RelationConfig.nested_relations, hdl]
  | vstr t => simp [relProjSpec, RelationConfig.relation_name,
      RelationConfig.fields, RelationConfig.nested_relations, hdl]
  | vbool b => simp [relProjSpec, RelationConfig.relation_name,
      RelationConfig.fields, RelationConfig.nested_relations, hdl]
  | vlist xs => simp [relProjSpec, RelationConfig.relation_name,
      RelationConfig.fields, RelationConfig.nested_relations, hdl]
  | vobj dd => simp [relProjSpec, RelationConfig.relation_name,
      RelationConfig.fields, RelationConfig.nested_relations, hdl]

/-- Processing relations against the projected dict reproduces processing
them against the source dict, given agreement of the relation lookups with
`relProjSpec` and idempotence of the per-relation projection. -/
theorem procRelations_congr (d R : Dict) :
    ∀ (rr : List RelationConfig),
      (∀ rc ∈ rr, rc.relation_name ≠ "" →
        lookupD R rc.relation_name = relProjSpec d rc) →
      (∀ rc ∈ rr, ∀ v : Value, v ≠ .vnull →
        filterRelationRecursive
          (filterRelationRecursive v rc.fields rc.nested_relations)
          rc.fields rc.nested_relations =
        filterRelationRecursive v rc.fields rc.nested_relations) →
      ∀ acc, procRelations acc R rr = procRelations acc d rr := by
  intro rr
  induction rr with
  | nil => intro _ _ acc; simp [procRelations]
  | cons hd rest ih =>
      intro hagree hidem acc
      obtain ⟨name, strat, flds, nested⟩ := hd
      have hagreer : ∀ rc ∈ rest, rc.relation_name ≠ "" →
          lookupD R rc.relation_name = relProjSpec d rc :=
        fun rc hrc => hagree rc (List.mem_cons_of_mem _ hrc)
      have hidemr : ∀ rc ∈ rest, ∀ v : Value, v ≠ .vnull →
          filterRelationRecursive
            (filterRelationRecursive v rc.fields rc.nested_relations)
            rc.fields rc.nested_relations =
          filterRelationRecursive v rc.fields rc.nested_relations :=
        fun rc hrc => hidem rc (List.mem_cons_of_mem _ hrc)
      by_cases hname : name = ""
      · rw [procRelations_cons_skip acc R name strat flds nested rest
          (Or.inl hname),
          procRelations_cons_skip acc d name strat flds nested rest
          (Or.inl hname)]
        exact ih hagreer hidemr acc
      · have hag := hagree (.mk name strat flds nested)
          (List.mem_cons_self _ _)
          (by simpa [RelationConfig.relation_name] using hname)
        have hid := hidem (.mk name strat flds nested)
          (List.mem_cons_self _ _)
        simp only [RelationConfig.fields,
          RelationConfig.nested_relations] at hid
        simp only [RelationConfig.relation_name] at hag
        cases hdl : lookupD d name with
        | none =>
            simp only [relProjSpec, RelationConfig.relation_name,
              hdl] at hag
            rw [procRelations_cons_skip acc R name strat flds nested rest
              (Or.inr (Or.inl hag)),
              procRelations_cons_skip acc d name strat flds nested rest
              (Or.inr (Or.inl hdl))]
            exact ih hagreer hidemr acc
        | some v =>
            by_cases hv : v = Value.vnull
            · subst hv
              simp only [relProjSpec, RelationConfig.relation_name,
                hdl] at hag
              rw [procRelations_cons_skip acc R name strat flds nested
                rest (Or.inr (Or.inl hag)),
                procRelations_cons_skip acc d name strat flds nested rest
                (Or.inr (Or.inr hdl))]
              exact ih hagreer hidemr acc
            · rw [relProjSpec_of_ne_null d name strat flds nested v hdl
                hv] at hag
              have hWne : filterRelationRecursive v flds nested ≠
                  Value.vnull :=
                filterRelationRecursive_ne_null v flds nested hv
              rw [procRelations_cons_store acc R name strat flds nested
                rest hname _ hag hWne,
                procRelations_cons_store acc d name strat flds nested rest
                hname v hdl hv, hid v hv]
              exact ih hagreer hidemr _

/-- The relation loop preserves distinctness of the accumulated keys. -/
theorem procRelations_keys_nodup (d : Dict) :
    ∀ (rr : List RelationConfig) (acc : Dict),
      (dictKeys acc).Nodup → (dictKeys (procRelations acc d rr)).Nodup := by
  intro rr
  induction rr with
  | nil =>
      intro acc h
      simpa [procRelations] using h
  | cons hd rest ih =>
      intro acc h
      obtain ⟨name, strat, flds, nested⟩ := hd
      by_cases hname : name = ""
      · rw [procRelations_cons_skip acc d name strat flds nested rest
          (Or.inl hname)]
        exact ih acc h
      · cases hdl : lookupD d name with
        | none =>
            rw [procRelations_cons_skip acc d name strat flds nested rest
              (Or.inr (Or.inl hdl))]
            exact ih acc h
        | some v =>
            by_cases hv : v = Value.vnull
            · subst hv
              rw [procRelations_cons_skip acc d name strat flds nested rest
                (Or.inr (Or.inr hdl))]
              exact ih acc h
            · rw [procRelations_cons_store acc d name strat flds nested
                rest hname v hdl hv]
              exact ih _ (dictKeys_nodup_dictInsert acc name _ h)

/-- Keys outside the relation-name set are untouched by the relation loop. -/
theorem procRelations_lookup_not_ns (d : Dict) (k : String)
    (rr : List RelationConfig) (acc : Dict) (hk : k ∉ relNamesOf rr) :
    lookupD (procRelations acc d rr) k = lookupD acc k :=
  procRelations_lookup_skip d k rr acc (by
    intro rc hrc hname
    exact absurd (show k ∈ relNamesOf rr from
      hname ▸ List.mem_map_of_mem RelationConfig.relation_name hrc) hk)

/-- Every nested config of a member is strictly smaller than the list. -/
theorem sizeOf_nested_lt_of_mem (rr : List RelationConfig)
    (rc : RelationConfig) (h : rc ∈ rr) :
    sizeOf rc.nested_relations < sizeOf rr := by
  have h1 : sizeOf rc < sizeOf rr := List.sizeOf_lt_of_mem h
  have h2 : sizeOf rc.nested_relations < sizeOf rc := by
    obtain ⟨name, strat, flds, nested⟩ := rc
    simp only [RelationConfig.nested_relations, RelationConfig.mk.sizeOf_spec]
    omega
  omega

/-- Pointwise reading of `rrAllWF`. -/
theorem rrAllWF_mem :
    ∀ (rr : List RelationConfig), rrAllWF rr = true →
      ∀ rc ∈ rr, rrWF rc.nested_relations = true := by
  intro rr
  induction rr with
  | nil => intro _ rc hrc; cases hrc
  | cons hd rest ih =>
      intro h rc hrc
      obtain ⟨name, strat, flds, nested⟩ := hd
      simp only [rrAllWF, Bool.and_eq_true] at h
      rcases List.mem_cons.mp hrc with hrc | hrc
      · subst hrc
        simpa [RelationConfig.nested_relations] using h.1
      · exact ih h.2 rc hrc

/-- After the relation loop runs from an accumulator free of relation-name
keys, looking up a configured relation name returns exactly `relProjSpec`. -/
theorem procRelations_lookup_spec (d acc : Dict) (rr : List RelationConfig)
    (hnd : (relNamesOf rr).Nodup)
    (hacc : ∀ k ∈ dictKeys acc, k ∉ relNamesOf rr) :
    ∀ rc ∈ rr, rc.relation_name ≠ "" →
      lookupD (procRelations acc d rr) rc.relation_name = relProjSpec d rc := by
  intro rc hrc hname
  have hkns : rc.relation_name ∈ relNamesOf rr :=
    List.mem_map_of_mem RelationConfig.relation_name hrc
  have haccnone : lookupD acc rc.relation_name = none :=
    lookupD_eq_none acc _ (fun hmem => hacc _ hmem hkns)
  cases hdl : lookupD d rc.relation_name with
  | none =>
      rw [procRelations_lookup_skip d rc.relation_name rr acc
        (fun _ _ _ => Or.inl hdl), haccnone]
      simp only [relProjSpec, hdl]
  | some v =>
      by_cases hv : v = Value.vnull
      · subst hv
        rw [procRelations_lookup_skip d rc.relation_name rr acc
          (fun _ _ _ => Or.inr hdl), haccnone]
        simp only [relProjSpec, hdl]
      · rw [procRelations_lookup_hit d rr acc rc rc.relation_name v hnd hrc
          rfl hname hdl hv]
        obtain ⟨name, strat, flds, nested⟩ := rc
        rw [relProjSpec_of_ne_null d name strat flds nested v
          (by simpa [RelationConfig.relation_name] using hdl) hv]
        rfl

/-- Projecting the scalar fields of an already fully projected record gives
back its scalar part. -/
theorem baseFields_idem (d : Dict) (rf : List String)
    (rr : List RelationConfig) (hnd : (relNamesOf rr).Nodup) :
    baseFields (procRelations (baseFields d rf (relNamesOf rr)) d rr) rf
      (relNamesOf rr) = baseFields d rf (relNamesOf rr) := by
  have hB := baseFields_keys d rf (relNamesOf rr)
  by_cases hrf : rf.isEmpty
  · have hfresh : ∀ rc ∈ rr,
        rc.relation_name ∉ dictKeys (baseFields d rf (relNamesOf rr)) :=
      fun rc hrc hmem => hB.1 _ hmem
        (List.mem_map_of_mem RelationConfig.relation_name hrc)
    have hR : procRelations (baseFields d rf (relNamesOf rr)) d rr =
        baseFields d rf (relNamesOf rr) ++ procRelations [] d rr :=
      procRelations_append d rr _ hnd hfresh
    have hRnodup : (dictKeys (procRelations
        (baseFields d rf (relNamesOf rr)) d rr)).Nodup :=
      procRelations_keys_nodup d rr _ hB.2
    have hsplit := baseAllGo_append (relNamesOf rr)
      (procRelations (baseFields d rf (relNamesOf rr)) d rr) [] hRnodup
      (by simp [dictKeys])
    have h1 : (baseFields d rf (relNamesOf rr)).filter
        (fun kv => kv.1 ∉ relNamesOf rr) =
        baseFields d rf (relNamesOf rr) :=
      List.filter_eq_self.mpr (fun kv hkv => by
        simpa using hB.1 kv.1 (List.mem_map_of_mem Prod.fst hkv))
    have h2 : (procRelations [] d rr).filter
        (fun kv => kv.1 ∉ relNamesOf rr) = [] := by
      rw [List.filter_eq_nil]
      intro kv hkv
      have hk : kv.1 ∈ dictKeys (procRelations [] d rr) :=
        List.mem_map_of_mem Prod.fst hkv
      rcases procRelations_keys d rr [] kv.1 hk with hk2 | hk2
      · simp [dictKeys] at hk2
      · simp [hk2]
    conv_lhs => rw [show baseFields (procRelations
        (baseFields d rf (relNamesOf rr)) d rr) rf (relNamesOf rr) =
        baseAllGo (relNamesOf rr)
          (procRelations (baseFields d rf (relNamesOf rr)) d rr) [] by
      simp [baseFields, hrf]]
    rw [hsplit, hR, List.filter_append, h1, h2]
    simp
  · have hrf2 : rf.isEmpty = false := by
      cases h : rf.isEmpty
      · rfl
      · exact absurd h hrf
    have hagree : ∀ f ∈ rf, f ∉ relNamesOf rr →
        lookupD (procRelations (baseFields d rf (relNamesOf rr)) d rr) f =
        lookupD d f := by
      intro f hf hfns
      rw [procRelations_lookup_not_ns d f rr _ hfns]
      have hlk := baseFieldsGo_lookup d (relNamesOf rr) f hfns rf []
      have hBval : baseFields d rf (relNamesOf rr) =
          baseFieldsGo d (relNamesOf rr) rf [] := by
        simp [baseFields, hrf2]
      rw [hBval, hlk]
      cases hd2 : lookupD d f with
      | none => simp [hd2, lookupD]
      | some v => simp [hd2, hf]
    have hgo := baseFieldsGo_congr
      (procRelations (baseFields d rf (relNamesOf rr)) d rr) d
      (relNamesOf rr) rf hagree []
    simp only [baseFields, hrf2, Bool.false_eq_true, if_false] at hgo ⊢
    exact hgo

/-- Joint idempotence of the object and relation projections, by strong
induction on the size of the relation-config list. -/
theorem projection_idem_core :
    ∀ (n : Nat) (rr : List RelationConfig), sizeOf rr ≤ n →
      rrWF rr = true →
      (∀ (rf : List String) (obj : Value),
        filterSingleObject (filterSingleObject obj rf rr) rf rr =
        filterSingleObject obj rf rr) ∧
      (∀ (rf : List String) (v : Value),
        filterRelationRecursive (filterRelationRecursive v rf rr) rf rr =
        filterRelationRecursive v rf rr) := by
  intro n
  induction n using Nat.strong_induction_on with
  | _ n ih =>
      intro rr hsz hwf
      rw [rrWF, Bool.and_eq_true, decide_eq_true_eq] at hwf
      have hnd : (relNamesOf rr).Nodup := hwf.1
      have hidem : ∀ rc ∈ rr, ∀ v : Value, v ≠ .vnull →
          filterRelationRecursive
            (filterRelationRecursive v rc.fields rc.nested_relations)
            rc.fields rc.nested_relations =
          filterRelationRecursive v rc.fields rc.nested_relations := by
        intro rc hrc v _
        have hlt : sizeOf rc.nested_relations < n :=
          lt_of_lt_of_le (sizeOf_nested_lt_of_mem rr rc hrc) hsz
        exact (ih _ hlt rc.nested_relations le_rfl
          (rrAllWF_mem rr hwf.2 rc hrc)).2 rc.fields v
      have hfso : ∀ (rf : List String) (obj : Value),
          filterSingleObject (filterSingleObject obj rf rr) rf rr =
          filterSingleObject obj rf rr := by
        intro rf obj
        cases obj with
        | vnull => simp [filterSingleObject]
        | vint m => simp [filterSingleObject]
        | vstr t => simp [filterSingleObject]
        | vbool b => simp [filterSingleObject]
        | vlist xs => simp [filterSingleObject]
        | vobj d =>
            simp only [filterSingleObject]
            have hBkeys := baseFields_keys d rf (relNamesOf rr)
            rw [baseFields_idem d rf rr hnd,
              procRelations_congr d
                (procRelations (baseFields d rf (relNamesOf rr)) d rr) rr
                (procRelations_lookup_spec d _ rr hnd hBkeys.1) hidem]
      have hfrr : ∀ (rf : List String) (v : Value),
          filterRelationRecursive (filterRelationRecursive v rf rr) rf rr =
          filterRelationRecursive v rf rr := by
        intro rf v
        cases v with
        | vnull =>
            have h1 : filterRelationRecursive Value.vnull rf rr =
                Value.vnull := by simp [filterRelationRecursive, pyFalsy]
            rw [h1]
            exact h1
        | vint m =>
            have h1 : filterRelationRecursive (.vint m) rf rr = .vint m := by
              simp [filterRelationRecursive]
            rw [h1]
            exact h1
        | vstr t =>
            have h1 : filterRelationRecursive (.vstr t) rf rr = .vstr t := by
              simp [filterRelationRecursive]
            rw [h1]
            exact h1
        | vbool b =>
            have h1 : filterRelationRecursive (.vbool b) rf rr = .vbool b :=
              by simp [filterRelationRecursive]
            rw [h1]
            exact h1
        | vlist xs =>
            by_cases hfal : pyFalsy (Value.vlist xs)
            · have h1 : filterRelationRecursive (.vlist xs) rf rr =
                  .vlist xs := by simp [filterRelationRecursive, hfal]
              rw [h1]
              exact h1
            · have hxs : xs ≠ [] := by
                simp [pyFalsy, List.isEmpty_iff] at hfal
                exact hfal
              have h1 : filterRelationRecursive (.vlist xs) rf rr =
                  .vlist (xs.map (fun x => filterSingleObject x rf rr)) := by
                simp only [filterRelationRecursive, hfal,
                  Bool.false_eq_true, if_false]
                exact congrArg Value.vlist
                  (attach_map_fn xs (fun x => filterSingleObject x rf rr))
              have hys : pyFalsy (.vlist
                  (xs.map (fun x => filterSingleObject x rf rr))) = false := by
                simp [pyFalsy, List.isEmpty_iff, hxs]
              have h2 : filterRelationRecursive (.vlist
                  (xs.map (fun x => filterSingleObject x rf rr))) rf rr =
                  .vlist ((xs.map (fun x => filterSingleObject x rf rr)).map
                    (fun x => filterSingleObject x rf rr)) := by
                simp only [filterRelationRecursive, hys,
                  Bool.false_eq_true, if_false]
                exact congrArg Value.vlist
                  (attach_map_fn (xs.map (fun x => filterSingleObject x rf rr))
                    (fun x => filterSingleObject x rf rr))
              rw [h1, h2, List.map_map]
              exact congrArg Value.vlist
                (List.map_congr_left (fun x _ => hfso rf x))
        | vobj d =>
            by_cases hfal : pyFalsy (Value.vobj d)
            · have h1 : filterRelationRecursive (.vobj d) rf rr = .vobj d :=
                by simp [filterRelationRecursive, hfal]
              rw [h1]
              exact h1
            · have h1 : filterRelationRecursive (.vobj d) rf rr =
                  filterSingleObject (.vobj d) rf rr := by
                simp [filterRelationRecursive, hfal]
              rw [h1]
              cases hmatch : filterSingleObject (.vobj d) rf rr with
              | vobj dd =>
                  by_cases hR : pyFalsy (Value.vobj dd)
                  · simp [filterRelationRecursive, hR]
                  · have h2 : filterRelationRecursive (.vobj dd) rf rr =
                        filterSingleObject (.vobj dd) rf rr := by
                      simp [filterRelationRecursive, hR]
                    rw [h2, ← hmatch, hfso rf (.vobj d)]
              | vnull => simp [filterSingleObject] at hmatch
              | vint m => simp [filterSingleObject] at hmatch
              | vstr t => simp [filterSingleObject] at hmatch
              | vbool b => simp [filterSingleObject] at hmatch
              | vlist ys => simp [filterSingleObject] at hmatch
      exact ⟨hfso, hfrr⟩

/-- C6: Projection is idempotent: for every record set and every `Filter`
`f` whose relation configs use distinct relation names at each nesting
level, `filter_response_fields` applied twice with `f.fields` and
`f.relations` equals one application (the code's projected output always
satisfies the requested schema again, so the second pass is a no-op). -/
theorem c6_projection_idempotent (rows : Value) (f : Filter)
    (hwf : rrWF f.relations = true) :
    filter_response_fields
      (filter_response_fields rows f.fields f.relations)
      f.fields f.relations =
    filter_response_fields rows f.fields f.relations := by
  have hfso := (projection_idem_core (sizeOf f.relations) f.relations
    le_rfl hwf).1
  by_cases hfal : pyFalsy rows
  · have h1 : filter_response_fields rows f.fields f.relations = rows := by
      simp [filter_response_fields, hfal]
    rw [h1]
    exact h1
  · by_cases hempty : (f.fields.isEmpty && f.relations.isEmpty) = true
    · have h1 : filter_response_fields rows f.fields f.relations = rows := by
        simp [filter_response_fields, hfal, hempty]
      rw [h1]
      exact h1
    · cases rows with
      | vnull => simp [pyFalsy] at hfal
      | vint m =>
          have h1 : filter_response_fields (.vint m) f.fields f.relations =
              .vint m := by
            simp [filter_response_fields, hfal, hempty, filterSingleObject]
          rw [h1]
          exact h1
      | vstr t =>
          have h1 : filter_response_fields (.vstr t) f.fields f.relations =
              .vstr t := by
            simp [filter_response_fields, hfal, hempty, filterSingleObject]
          rw [h1]
          exact h1
      | vbool b =>
          have h1 : filter_response_fields (.vbool b) f.fields f.relations =
              .vbool b := by
            simp [filter_response_fields, hfal, hempty, filterSingleObject]
          rw [h1]
          exact h1
      | vlist xs =>
          have hxs : xs ≠ [] := by
            simp [pyFalsy, List.isEmpty_iff] at hfal
            exact hfal
          have h1 : filter_response_fields (.vlist xs) f.fields f.relations =
              .vlist (xs.map
                (fun x => filterSingleObject x f.fields f.relations)) := by
            simp [filter_response_fields, hfal, hempty]
          have hys : pyFalsy (.vlist (xs.map
              (fun x => filterSingleObject x f.fields f.relations))) =
              false := by
            simp [pyFalsy, List.isEmpty_iff, hxs]
          have h2 : filter_response_fields (.vlist (xs.map
              (fun x => filterSingleObject x f.fields f.relations)))
              f.fields f.relations =
              .vlist ((xs.map
                (fun x => filterSingleObject x f.fields f.relations)).map
                (fun x => filterSingleObject x f.fields f.relations)) := by
            simp [filter_response_fields, hys, hempty]
          rw [h1, h2, List.map_map]
          exact congrArg Value.vlist
            (List.map_congr_left (fun x _ => hfso f.fields x))
      | vobj d =>
          have h1 : filter_response_fields (.vobj d) f.fields f.relations =
              filterSingleObject (.vobj d) f.fields f.relations := by
            simp [filter_response_fields, hfal, hempty]
          rw [h1]
          cases hmatch : filterSingleObject (.vobj d) f.fields f.relations
            with
          | vobj dd =>
              by_cases hR : pyFalsy (Value.vobj dd)
              · simp [filter_response_fields, hR]
              · have h2 : filter_response_fields (.vobj dd) f.fields
                    f.relations =
                    filterSingleObject (.vobj dd) f.fields f.relations := by
                  simp [filter_response_fields, hR, hempty]
                rw [h2, ← hmatch, hfso f.fields (.vobj d)]
          | vnull => simp [filterSingleObject] at hmatch
          | vint m => simp [filterSingleObject] at hmatch
          | vstr t => simp [filterSingleObject] at hmatch
          | vbool b => simp [filterSingleObject] at hmatch
          | vlist ys => simp [filterSingleObject] at hmatch

/-- Witness for C6 at a concrete record, field list and relation config. -/
theorem c6_witness :
    rrWF [RelationConfig.mk "author" "selectinload" ["email"] []] = true ∧
    filter_response_fields
      (filter_response_fields
        (.vobj [("id", .vint 1), ("title", .vstr "A"),
          ("author", .vobj [("id", .vint 10), ("email", .vstr "a@x.com"),
            ("name", .vstr "Ann")])])
        ["id"] [RelationConfig.mk "author" "selectinload" ["email"] []])
      ["id"] [RelationConfig.mk "author" "selectinload" ["email"] []] =
    filter_response_fields
      (.vobj [("id", .vint 1), ("title", .vstr "A"),
        ("author", .vobj [("id", .vint 10), ("email", .vstr "a@x.com"),
          ("name", .vstr "Ann")])])
      ["id"] [RelationConfig.mk "author" "selectinload" ["email"] []] := by
  have hwf : rrWF [RelationConfig.mk "author" "selectinload" ["email"] []] =
      true := by
    simp +decide [rrWF, rrAllWF, relNamesOf]
  refine ⟨hwf, ?_⟩
  exact c6_projection_idempotent
    (.vobj [("id", .vint 1), ("title", .vstr "A"),
      ("author", .vobj [("id", .vint 10), ("email", .vstr "a@x.com"),
        ("name", .vstr "Ann")])])
    { conditions := [], logical_operator := .AND,
      relations := [RelationConfig.mk "author" "selectinload" ["email"] []],
      fields := ["id"], limit := some 10, offset := some 0,
      order_by := "", order_direction := "asc" } hwf

/-! ## Claim C1: upfront join analysis and deferred field selection -/

theorem FSInv_refl (qb : QB) (hfsa : qb.field_selection_applied = false) :
    FSInv qb qb :=
  ⟨hfsa, rfl, rfl, rfl⟩

theorem FSInv_trans {qb qb2 qb3 : QB} (h1 : FSInv qb qb2)
    (h2 : FSInv qb2 qb3) : FSInv qb qb3 :=
  ⟨h2.1, h2.2.1.trans h1.2.1, h2.2.2.1.trans h1.2.2.1,
   h2.2.2.2.trans h1.2.2.2⟩

/-- The join step of the navigation loops cannot revert the selection when no
narrow selection was applied, so it preserves the deferred-selection state. -/
theorem FSInv_joinStep (qb : QB) (key : String)
    (hfsa : qb.field_selection_applied = false) :
    FSInv qb (if key ∈ qb.joins_applied then qb
      else if qb.field_selection_applied then
        { qb with
          query := { emptyQuery with joins := [key] },
          field_selection_applied := false,
          joins_applied := qb.joins_applied ++ [key] }
      else
        { qb with
          query := { qb.query with joins := qb.query.joins ++ [key] },
          joins_applied := qb.joins_applied ++ [key] }) := by
  by_cases hmem : key ∈ qb.joins_applied
  · simp only [hmem, if_true]
    exact FSInv_refl qb hfsa
  · simp only [hmem, if_false, hfsa, Bool.false_eq_true]
    exact ⟨rfl, rfl, rfl, rfl⟩

theorem relCondGo_FSInv (db : ModelDB) (operator : String) (v : Value) :
    ∀ (path : List String) (qb : QB) (current : ModelMeta),
      qb.field_selection_applied = false →
      FSInv qb (relCondGo db qb current path operator v).1 := by
  intro path
  induction path with
  | nil => intro qb current h; exact FSInv_refl qb h
  | cons rel rest ih =>
      intro qb current h
      cases rest with
      | nil =>
          simp only [relCondGo]
          by_cases hha : pyHasattr current rel
          · simp only [if_pos hha]
            cases buildFilterClause (current.name, rel) operator v with
            | ok c => exact FSInv_refl qb h
            | error e => exact FSInv_refl qb h
          · simp only [if_neg hha]
            exact FSInv_refl qb h
      | cons seg2 rest2 =>
          simp only [relCondGo]
          by_cases hha : pyHasattr current rel
          · simp only [if_pos hha]
            cases getRelatedModel db current rel with
            | some relatedMeta =>
                exact FSInv_trans (FSInv_joinStep qb _ h)
                  (ih _ relatedMeta (FSInv_joinStep qb _ h).1)
            | none => exact FSInv_refl qb h
          · simp only [if_neg hha]
            exact FSInv_refl qb h

theorem orderNavGo_FSInv (db : ModelDB) :
    ∀ (path : List String) (qb : QB) (current : ModelMeta),
      qb.field_selection_applied = false →
      FSInv qb (orderNavGo db qb current path).1 := by
  intro path
  induction path with
  | nil => intro qb current h; exact FSInv_refl qb h
  | cons rel rest ih =>
      intro qb current h
      cases rest with
      | nil =>
          simp only [orderNavGo]
          by_cases hha : pyHasattr current rel
          · simp only [if_pos hha]
            exact FSInv_refl qb h
          · simp only [if_neg hha]
            exact FSInv_refl qb h
      | cons seg2 rest2 =>
          simp only [orderNavGo]
          by_cases hha : pyHasattr current rel
          · simp only [if_pos hha]
            cases getRelatedModel db current rel with
            | some relatedMeta =>
                exact FSInv_trans (FSInv_joinStep qb _ h)
                  (ih _ relatedMeta (FSInv_joinStep qb _ h).1)
            | none => exact FSInv_refl qb h
          · simp only [if_neg hha]
            exact FSInv_refl qb h

theorem applyCond_FSInv (db : ModelDB) :
    ∀ (n : Nat),
      (∀ (c : Cond) (qb qb2 : QB) (oc : Option Clause), sizeOf c ≤ n →
        qb.field_selection_applied = false →
        applyCondAny db c qb = .ok (qb2, oc) → FSInv qb qb2) ∧
      (∀ (cs : List Cond) (qb qb2 : QB) (cls : List Clause), sizeOf cs ≤ n →
        qb.field_selection_applied = false →
        applyCondList db cs qb = .ok (qb2, cls) → FSInv qb qb2) := by
  intro n
  induction n using Nat.strong_induction_on with
  | _ n ih =>
      constructor
      · intro c qb qb2 oc hsz hfsa heq
        cases c with
        | atom a operator v =>
            simp only [applyCondAny] at heq
            cases hsp : splitPath a with
            | nil =>
                simp [hsp, relCondGo] at heq
                obtain ⟨rfl, rfl⟩ := heq
                exact FSInv_refl qb hfsa
            | cons s1 srest =>
                cases srest with
                | nil =>
                    simp only [hsp] at heq
                    by_cases hha : pyHasattr qb.modelClass s1
                    · simp only [if_pos hha] at heq
                      cases hbc : buildFilterClause (qb.modelClass.name, s1)
                          operator v with
                      | ok cl =>
                          simp [hbc] at heq
                          obtain ⟨rfl, rfl⟩ := heq
                          exact FSInv_refl qb hfsa
                      | error e => simp [hbc] at heq
                    · simp only [if_neg hha] at heq
                      simp at heq
                      obtain ⟨rfl, rfl⟩ := heq
                      exact FSInv_refl qb hfsa
                | cons s2 srest2 =>
                    simp only [hsp] at heq
                    simp at heq
                    have hrg := relCondGo_FSInv db operator v
                      (s1 :: s2 :: srest2) qb qb.modelClass hfsa
                    rw [heq] at hrg
                    exact hrg
        | group cs lop =>
            simp only [applyCondAny] at heq
            by_cases hcs : cs.isEmpty
            · simp [hcs] at heq
              obtain ⟨rfl, rfl⟩ := heq
              exact FSInv_refl qb hfsa
            · simp only [hcs, Bool.false_eq_true, if_false] at heq
              cases hlist : applyCondList db cs qb with
              | error e => simp [hlist, Except.bind, bind] at heq
              | ok p =>
                  obtain ⟨qb1, clauses⟩ := p
                  have hszcs : sizeOf cs < n := by
                    have : sizeOf cs < sizeOf (Cond.group cs lop) := by
                      simp only [Cond.group.sizeOf_spec]; omega
                    omega
                  have hinv1 := (ih (sizeOf cs) hszcs).2 cs qb qb1 clauses
                    (le_refl _) hfsa hlist
                  simp only [hlist, Except.bind, bind] at heq
                  by_cases hcl : clauses.isEmpty
                  · simp [hcl] at heq
                    obtain ⟨rfl, rfl⟩ := heq
                    exact hinv1
                  · simp only [hcl, Bool.false_eq_true, if_false] at heq
                    by_cases hlop : lop = LogicalOperator.OR
                    · simp [hlop] at heq
                      obtain ⟨rfl, rfl⟩ := heq
                      exact hinv1
                    · simp [hlop] at heq
                      obtain ⟨rfl, rfl⟩ := heq
                      exact hinv1
      · intro cs qb qb2 cls hsz hfsa heq
        cases cs with
        | nil =>
            simp [applyCondList] at heq
            obtain ⟨rfl, rfl⟩ := heq
            exact FSInv_refl qb hfsa
        | cons c rest =>
            simp only [applyCondList] at heq
            cases hc : applyCondAny db c qb with
            | error e => simp [hc, Except.bind, bind] at heq
            | ok p =>
                obtain ⟨qb1, oc⟩ := p
                have hszc : sizeOf c < n := by
                  have : sizeOf c < sizeOf (c :: rest) := by
                    simp only [List.cons.sizeOf_spec]; omega
                  omega
                have hinv1 := (ih (sizeOf c) hszc).1 c qb qb1 oc
                  (le_refl _) hfsa hc
                cases hrest : applyCondList db rest qb1 with
                | error e => simp [hc, hrest, Except.bind, bind] at heq
                | ok p2 =>
                    obtain ⟨qb2x, cls2⟩ := p2
                    have hszr : sizeOf rest < n := by
                      have : sizeOf rest < sizeOf (c :: rest) := by
                        simp only [List.cons.sizeOf_spec]; omega
                      omega
                    have hinv2 := (ih (sizeOf rest) hszr).2 rest qb1 qb2x
                      cls2 (le_refl _) hinv1.1 hrest
                    simp only [hc, hrest, Except.bind, bind] at heq
                    cases oc with
                    | some cl =>
                        simp at heq
                        obtain ⟨rfl, rfl⟩ := heq
                        exact FSInv_trans hinv1 hinv2
                    | none =>
                        simp at heq
                        obtain ⟨rfl, rfl⟩ := heq
                        exact FSInv_trans hinv1 hinv2

theorem apply_conditions_FSInv (db : ModelDB) (qb qb2 : QB)
    (conds : List Cond) (lop : LogicalOperator)
    (hfsa : qb.field_selection_applied = false)
    (heq : apply_conditions db qb conds lop = .ok qb2) : FSInv qb qb2 := by
  simp only [apply_conditions] at heq
  by_cases hc : conds.isEmpty
  · simp [hc] at heq
    rw [← heq]
    exact FSInv_refl qb hfsa
  · simp only [hc, Bool.false_eq_true, if_false] at heq
    cases hlist : applyCondList db conds qb with
    | error e => simp [hlist, Except.bind, bind] at heq
    | ok p =>
        obtain ⟨qb1, clauses⟩ := p
        have hinv1 := (applyCond_FSInv db (sizeOf conds)).2 conds qb qb1
          clauses (le_refl _) hfsa hlist
        simp only [hlist, Except.bind, bind] at heq
        by_cases hcl : clauses.isEmpty
        · simp [hcl] at heq
          subst heq
          exact hinv1
        · simp only [hcl, Bool.false_eq_true, if_false] at heq
          simp at heq
          subst heq
          exact ⟨hinv1.1, hinv1.2.1, hinv1.2.2.1, hinv1.2.2.2⟩

theorem apply_relation_loading_FSInv (db : ModelDB) (qb : QB)
    (rc : RelationConfig) (hfsa : qb.field_selection_applied = false) :
    FSInv qb (apply_relation_loading db qb rc) := by
  simp only [apply_relation_loading]
  by_cases hha : pyHasattr qb.modelClass rc.relation_name
  · simp only [if_pos hha]
    exact ⟨hfsa, rfl, rfl, rfl⟩
  · simp only [if_neg hha]
    exact FSInv_refl qb hfsa

theorem apply_relations_FSInv (db : ModelDB) (rs : List RelationConfig) :
    ∀ (qb : QB), qb.field_selection_applied = false →
      FSInv qb (apply_relations db qb rs) := by
  induction rs with
  | nil => intro qb h; exact FSInv_refl qb h
  | cons rc rest ih =>
      intro qb h
      have hstep := apply_relation_loading_FSInv db qb rc h
      have hrest := ih (apply_relation_loading db qb rc) hstep.1
      exact FSInv_trans hstep (by
        simpa [apply_relations] using hrest)

theorem apply_ordering_FSInv (db : ModelDB) (qb : QB) (ob dir : String)
    (hfsa : qb.field_selection_applied = false) :
    FSInv qb (apply_ordering db qb ob dir) := by
  simp only [apply_ordering]
  by_cases hob : ob == ""
  · simp only [hob, if_true]
    exact FSInv_refl qb hfsa
  · simp only [hob, Bool.false_eq_true, if_false]
    have hnav := orderNavGo_FSInv db (splitPath ob) qb qb.modelClass hfsa
    cases hres : orderNavGo db qb qb.modelClass (splitPath ob) with
    | mk qb2 ocol =>
        rw [hres] at hnav
        cases ocol with
        | some col =>
            exact ⟨hnav.1, hnav.2.1, hnav.2.2.1, hnav.2.2.2⟩
        | none => exact hnav

theorem apply_pagination_FSInv (qb : QB) (limit offset : Option Int)
    (hfsa : qb.field_selection_applied = false) :
    FSInv qb (apply_pagination qb limit offset) := by
  cases limit with
  | none =>
      cases offset with
      | none => exact FSInv_refl qb hfsa
      | some o => exact ⟨hfsa, rfl, rfl, rfl⟩
  | some l =>
      cases offset with
      | none => exact ⟨hfsa, rfl, rfl, rfl⟩
      | some o => exact ⟨hfsa, rfl, rfl, rfl⟩

/-- Keys of the deferred field-selection fold are requested field names. -/
theorem postFold_fields_keys (d : Dict) :
    ∀ (sf : List String) (acc : Dict),
      ∀ k ∈ dictKeys (sf.foldl (fun acc fn =>
          match lookupD d fn with
          | some v => dictInsert acc fn v
          | none => acc) acc),
        k ∈ dictKeys acc ∨ k ∈ sf := by
  intro sf
  induction sf with
  | nil => intro acc k hk; exact Or.inl hk
  | cons fn rest ih =>
      intro acc k hk
      rw [List.foldl_cons] at hk
      cases hd : lookupD d fn with
      | none =>
          rw [hd] at hk
          rcases ih acc k hk with h | h
          · exact Or.inl h
          · exact Or.inr (List.mem_cons_of_mem _ h)
      | some v =>
          rw [hd] at hk
          rcases ih (dictInsert acc fn v) k hk with h | h
          · rcases dictKeys_dictInsert_mem acc fn k v h with h2 | h2
            · exact Or.inl h2
            · exact Or.inr (h2 ▸ List.mem_cons_self _ _)
          · exact Or.inr (List.mem_cons_of_mem _ h)

/-- Keys of the relation-copying fold are configured relation names. -/
theorem postFold_rel_keys (d : Dict) :
    ∀ (rs : List RelationConfig) (acc : Dict),
      ∀ k ∈ dictKeys (rs.foldl (fun acc rc =>
          match lookupD d rc.relation_name with
          | some v => dictInsert acc rc.relation_name v
          | none => acc) acc),
        k ∈ dictKeys acc ∨ k ∈ relNamesOf rs := by
  intro rs
  induction rs with
  | nil => intro acc k hk; exact Or.inl hk
  | cons rc rest ih =>
      intro acc k hk
      rw [List.foldl_cons] at hk
      cases hd : lookupD d rc.relation_name with
      | none =>
          rw [hd] at hk
          rcases ih acc k hk with h | h
          · exact Or.inl h
          · exact Or.inr (List.mem_cons_of_mem _ h)
      | some v =>
          rw [hd] at hk
          rcases ih (dictInsert acc rc.relation_name v) k hk with h | h
          · rcases dictKeys_dictInsert_mem acc rc.relation_name k v h
              with h2 | h2
            · exact Or.inl h2
            · refine Or.inr ?_
              rw [h2]
              exact List.mem_cons_self _ _
          · exact Or.inr (List.mem_cons_of_mem _ h)

/-- Every key of a post-filtered row is a requested field or a configured
relation name. -/
theorem postFilterRow_keys (f : Filter) (sf : List String) (r : Value) :
    ∀ k ∈ dictKeys (asDict (postFilterRow f sf r)),
      k ∈ sf ∨ k ∈ relNamesOf f.relations := by
  intro k hk
  cases r with
  | vobj d =>
      simp only [postFilterRow, asDict] at hk
      by_cases hrel : f.relations.isEmpty
      · rw [if_pos hrel] at hk
        rcases postFold_fields_keys d sf [] k hk with h | h
        · simp [dictKeys] at h
        · exact Or.inl h
      · rw [if_neg hrel] at hk
        rcases postFold_rel_keys d f.relations _ k hk with h | h
        · rcases postFold_fields_keys d sf [] k h with h2 | h2
          · simp [dictKeys] at h2
          · exact Or.inl h2
        · exact Or.inr h
  | vnull => simp [postFilterRow, asDict] at hk
  | vint m => simp [postFilterRow, asDict] at hk
  | vstr t => simp [postFilterRow, asDict] at hk
  | vbool b => simp [postFilterRow, asDict] at hk
  | vlist xs => simp [postFilterRow, asDict] at hk

/-- C1 (amended): when the conditions list is NON-EMPTY and a join is
required by a dotted condition path (or by a dotted `order_by`), the builder
detects the join requirement before committing to a narrow column selection:
the built plan stays a full-entity selection, the requested valid fields are
only recorded, and `get_with_filters` re-applies the narrow field set after
execution, so every returned record holds only requested fields and
configured relation keys.  (With an empty conditions list the analysis
returns early and this guarantee fails; see the counterexample.) -/
theorem c1_deferred_projection (db : ModelDB) (meta : ModelMeta) (f : Filter)
    (qb : QB) (exec : Query → List Value)
    (hconds : f.conditions.isEmpty = false)
    (hdot : condListHasDot f.conditions = true ∨
      ((f.order_by == "") = false ∧ hasDot f.order_by = true))
    (hfields : f.fields.isEmpty = false)
    (hvalid : (f.fields.filter (fun x => pyHasattr meta x)).isEmpty = false)
    (hbuild : buildQuery db meta f = .ok qb) :
    qb.requires_joins = true ∧
    qb.query.selectFields = none ∧
    qb.field_selection_applied = false ∧
    qb.selected_fields = some (f.fields.filter (fun x => pyHasattr meta x)) ∧
    get_with_filters db meta exec f =
      .ok ((exec qb.query).map
        (postFilterRow f (f.fields.filter (fun x => pyHasattr meta x)))) ∧
    (∀ r ∈ (exec qb.query).map
        (postFilterRow f (f.fields.filter (fun x => pyHasattr meta x))),
      ∀ k ∈ dictKeys (asDict r),
        k ∈ f.fields ∨ k ∈ relNamesOf f.relations) := by
  have hb0 := hbuild
  have hA : (if f.fields.isEmpty then analyze_requirements (initQB meta) f
      else apply_field_selection (analyze_requirements (initQB meta) f)
        f.fields) =
      { modelClass := meta, query := emptyQuery, joins_applied := [],
        field_selection_applied := false,
        selected_fields := some (f.fields.filter (fun x => pyHasattr meta x)),
        requires_joins := true } := by
    have har : analyze_requirements (initQB meta) f =
        { modelClass := meta, query := emptyQuery, joins_applied := [],
          field_selection_applied := false, selected_fields := none,
          requires_joins := true } := by
      rcases hdot with h | h
      · simp [analyze_requirements, hconds, initQB, h]
      · simp [analyze_requirements, hconds, initQB, h.1, h.2]
    rw [if_neg (by simp [hfields]), har]
    simp [apply_field_selection, hfields, hvalid]
  rw [buildQuery] at hbuild
  simp only [hconds, Bool.false_eq_true, if_false, hA, Except.bind, bind]
    at hbuild
  cases hcond : apply_conditions db
      { modelClass := meta, query := emptyQuery, joins_applied := [],
        field_selection_applied := false,
        selected_fields := some (f.fields.filter (fun x => pyHasattr meta x)),
        requires_joins := true }
      f.conditions f.logical_operator with
  | error e =>
      rw [hcond] at hbuild
      simp [Except.bind, bind] at hbuild
  | ok qb3 =>
      rw [hcond] at hbuild
      simp only [Except.bind, bind, Except.ok.injEq] at hbuild
      have hfs3 : FSInv
          { modelClass := meta, query := emptyQuery, joins_applied := [],
            field_selection_applied := false,
            selected_fields :=
              some (f.fields.filter (fun x => pyHasattr meta x)),
            requires_joins := true } qb3 :=
        apply_conditions_FSInv db _ qb3 f.conditions f.logical_operator rfl
          hcond
      have hrel : FSInv qb3 (if f.relations.isEmpty then qb3
          else apply_relations db qb3 f.relations) := by
        by_cases hr : f.relations.isEmpty
        · rw [if_pos hr]
          exact FSInv_refl qb3 hfs3.1
        · rw [if_neg hr]
          exact apply_relations_FSInv db f.relations qb3 hfs3.1
      have hord : FSInv (if f.relations.isEmpty then qb3
          else apply_relations db qb3 f.relations)
          (if f.order_by == "" then
            (if f.relations.isEmpty then qb3
              else apply_relations db qb3 f.relations)
            else apply_ordering db
              (if f.relations.isEmpty then qb3
                else apply_relations db qb3 f.relations)
              f.order_by f.order_direction) := by
        by_cases ho : f.order_by == ""
        · rw [if_pos ho]
          exact FSInv_refl _ hrel.1
        · rw [if_neg ho]
          exact apply_ordering_FSInv db _ f.order_by f.order_direction hrel.1
      have hpag : FSInv _ (apply_pagination
          (if f.order_by == "" then
            (if f.relations.isEmpty then qb3
              else apply_relations db qb3 f.relations)
            else apply_ordering db
              (if f.relations.isEmpty then qb3
                else apply_relations db qb3 f.relations)
              f.order_by f.order_direction)
          f.limit f.offset) :=
        apply_pagination_FSInv _ f.limit f.offset hord.1
      have hall : FSInv
          { modelClass := meta, query := emptyQuery, joins_applied := [],
            field_selection_applied := false,
            selected_fields :=
              some (f.fields.filter (fun x => pyHasattr meta x)),
            requires_joins := true } qb := by
        rw [← hbuild]
        exact FSInv_trans hfs3 (FSInv_trans hrel (FSInv_trans hord hpag))
      have hrj : qb.requires_joins = true := hall.2.2.1
      have hsel : qb.selected_fields =
          some (f.fields.filter (fun x => pyHasattr meta x)) := hall.2.2.2
      have hsf : qb.query.selectFields = none := hall.2.1
      have hfsa : qb.field_selection_applied = false := hall.1
      have hget : get_with_filters db meta exec f =
          .ok (postProcess qb f (exec qb.query)) := by
        simp [get_with_filters, hb0, Except.bind, bind]
      have hpp : postProcess qb f (exec qb.query) =
          (exec qb.query).map
            (postFilterRow f (f.fields.filter (fun x => pyHasattr meta x))) :=
        by
        simp only [postProcess, hsel]
        simp [hfields, hvalid, hrj]
      refine ⟨hrj, hsf, hfsa, hsel, by rw [hget, hpp], ?_⟩
      intro r hr k hk
      rcases List.mem_map.mp hr with ⟨r0, _, hr0⟩
      rcases postFilterRow_keys f _ r0 k (hr0 ▸ hk) with h | h
      · exact Or.inl (List.mem_of_mem_filter h)
      · exact Or.inr h

/-- C1 counterexample: with an empty conditions list and a dotted
`order_by`, the upfront analysis returns early, the narrow selection is
applied immediately, the ordering join then reverts it to a full-entity
select, and no post-processing happens: the full records (including the
unrequested field `title`) are returned, and the built plan has dropped the
requested `["id"]` projection. -/
theorem c1_counterexample :
    (get_with_filters testDB postMeta (fun q => execQuery postTable q)
        c1filter).toOption.map
      (fun rows => rows.map (fun r => dictKeys (asDict r))) =
      some [["id", "title", "author_id"], ["id", "title", "author_id"],
        ["id", "title", "author_id"]] ∧
    (buildQuery testDB postMeta c1filter).toOption.map
      (fun qb => (qb.query.selectFields, qb.requires_joins,
        qb.query.joins)) =
      some (none, false, ["Post.author"]) := by
  constructor
  · decide
  · decide

/-- Witness for C1 at a concrete filter with a dotted condition and a narrow
field list: the plan keeps a full-entity select with the join, and the rows
come back post-filtered to the requested fields. -/
theorem c1_witness :
    c1goodFilter.conditions.isEmpty = false ∧
    condListHasDot c1goodFilter.conditions = true ∧
    c1goodFilter.fields.isEmpty = false ∧
    (c1goodFilter.fields.filter
      (fun x => pyHasattr postMeta x)).isEmpty = false ∧
    buildQuery testDB postMeta c1goodFilter = .ok c1goodQB ∧
    c1goodQB.requires_joins = true ∧
    c1goodQB.query.selectFields = none ∧
    get_with_filters testDB postMeta (fun q => execQuery postTable q)
      c1goodFilter =
      .ok ((execQuery postTable c1goodQB.query).map
        (postFilterRow c1goodFilter
          (c1goodFilter.fields.filter (fun x => pyHasattr postMeta x)))) := by
  have e1 : splitPath "author.email" = ["author", "email"] := by decide
  have e2 : pyHasattr postMeta "author" = true := by decide
  have e3 : getRelatedModel testDB postMeta "author" = some authorMeta := by
    decide
  have e4 : pyHasattr authorMeta "email" = true := by decide
  have e5 : postMeta.name ++ "." ++ "author" = "Post.author" := by decide
  have hcd : condListHasDot c1goodFilter.conditions = true := by decide
  have hb : buildQuery testDB postMeta c1goodFilter = .ok c1goodQB := by
    simp +decide [buildQuery, initQB, analyze_requirements, condHasDot, e1,
      e2, e3, e4, e5, apply_conditions, applyCondList, applyCondAny,
      relCondGo, buildFilterClause, apply_field_selection, apply_pagination,
      emptyQuery, c1goodFilter, c1goodQB, Except.bind, bind]
  have hmain := c1_deferred_projection testDB postMeta c1goodFilter c1goodQB
    (fun q => execQuery postTable q) (by decide) (Or.inl hcd) (by decide)
    (by decide) hb
  exact ⟨by decide, hcd, by decide, by decide, hb, hmain.1, hmain.2.1,
    hmain.2.2.2.2.1⟩

end CTC
